import Mathlib

set_option maxRecDepth 8192

/-!
Shallow embedding of the identifier transcoding and uniquification engine
(usd-exchange NameAlgo / omni transcoding bootstring codec, uniquifier and
ValidChildNameCache), together with proofs of its specified properties.

All names are modelled as lists of Unicode code points (`List Nat`); byte
inputs are lists of byte values.  The codec, uniquifier and cache are
modelled from the specification (the compiled implementation is not part of
the repository source tree; only its test suite is), and every definition is
validated against the exact expected strings of the test suite.
-/

/-- Modelled from the spec: a code point legal inside an identifier segment
(`[A-Za-z0-9_]`). -/
def isBasicCode (c : Nat) : Bool :=
  (48 ≤ c && c ≤ 57) || (65 ≤ c && c ≤ 90) || (97 ≤ c && c ≤ 122) || c == 95

/-- An ASCII decimal digit code point. -/
def isDigitCode (c : Nat) : Bool :=
  48 ≤ c && c ≤ 57

/-- The reserved escape marker `tn__` as code points. -/
def tnMarker : List Nat := [116, 110, 95, 95]

/-- Digit value (0..61) to code point over the alphabet `0-9A-Za-z`. -/
def digitChar (d : Nat) : Nat :=
  if d < 10 then 48 + d else if d < 36 then 55 + d else 61 + d

/-- Code point to digit value, inverse of `digitChar` on its image. -/
def charDigit (c : Nat) : Nat :=
  if c < 58 then c - 48 else if c < 91 then c - 55 else c - 61

/-- Modelled from the spec: little-endian variable-length integer digits with
fixed threshold 31 (digit values below 31 terminate a group, values 31..61
continue it).  Fuelled for structural recursion; `fuel > q` suffices. -/
def encodeVarintAux : Nat → Nat → List Nat
  | 0, q => [q]
  | fuel + 1, q =>
      if q < 31 then [q]
      else (31 + (q - 31) % 31) :: encodeVarintAux fuel ((q - 31) / 31)

/-- Variable-length integer digits of `q`. -/
def encodeVarint (q : Nat) : List Nat := encodeVarintAux (q + 1) q

/-- Parse a concatenation of variable-length integer digit groups back into
the list of encoded integers. -/
def parseVarAux : List Nat → Nat → Nat → List Nat
  | [], _, _ => []
  | d :: ds, acc, w =>
      if d < 31 then (acc + d * w) :: parseVarAux ds 0 1
      else parseVarAux ds (acc + d * w) (w * 31)

/-- Pair every element with its index: `(value, index)` pairs, indices
starting at `k`. -/
def withIdx : Nat → List Nat → List (Nat × Nat)
  | _, [] => []
  | k, c :: cs => (c, k) :: withIdx (k + 1) cs

/-- Lexicographic order on `(value, index)` pairs. -/
def pairLE (a b : Nat × Nat) : Bool :=
  decide (a.1 < b.1 ∨ (a.1 = b.1 ∧ a.2 ≤ b.2))

/-- Ordered insert for `pairLE`. -/
def insertPair (a : Nat × Nat) : List (Nat × Nat) → List (Nat × Nat)
  | [] => [a]
  | b :: l => if pairLE a b then a :: b :: l else b :: insertPair a l

/-- Insertion sort by `pairLE`: the order in which non-basic characters are
transcribed (by code point value, then by position). -/
def sortPairs : List (Nat × Nat) → List (Nat × Nat)
  | [] => []
  | a :: l => insertPair a (sortPairs l)

/-- Number of `true` entries of a mask. -/
def countT : List Bool → Nat
  | [] => 0
  | b :: l => (if b then 1 else 0) + countT l

/-- Set position `p` of a mask to `true`. -/
def setT : List Bool → Nat → List Bool
  | [], _ => []
  | _ :: l, 0 => true :: l
  | b :: l, p + 1 => b :: setT l p

/-- Keep the characters whose mask entry is `true`. -/
def maskFilter : List Bool → List Nat → List Nat
  | b :: ms, c :: cs => if b then c :: maskFilter ms cs else maskFilter ms cs
  | _, _ => []

/-- Insert a value at an index of a list (append when out of range). -/
def insertAt : Nat → Nat → List Nat → List Nat
  | 0, a, l => a :: l
  | _ + 1, a, [] => [a]
  | p + 1, a, x :: l => x :: insertAt p a l

/-- Modelled from the spec: one delta per transcribed character, computed
from the previous character value, the count of already-present characters,
and the insertion position among present characters. -/
def emitDeltas : List Bool → Nat → List (Nat × Nat) → List Nat
  | _, _, [] => []
  | ms, prev, (v, p) :: rest =>
      ((v - prev) * (countT ms + 1) + countT (ms.take p)) ::
        emitDeltas (setT ms p) v rest

/-- Apply all insertions to a mask. -/
def setMany : List (Nat × Nat) → List Bool → List Bool
  | [], ms => ms
  | (_, p) :: rest, ms => setMany rest (setT ms p)

/-- Modelled from the spec: the decoder replays each delta by dividing by
(current length + 1); the quotient advances the character value and the
remainder is the insertion index. -/
def decodeCore : List Nat → Nat → List Nat → List Nat
  | out, _, [] => out
  | out, n, d :: ds =>
      decodeCore (insertAt (d % (out.length + 1)) (n + d / (out.length + 1)) out)
        (n + d / (out.length + 1)) ds

/-- The `(value, position)` pairs of the non-basic characters. -/
def nbPairs (cps : List Nat) : List (Nat × Nat) :=
  (withIdx 0 cps).filter (fun vp => !(isBasicCode vp.1))

/-- A token is returned unchanged iff it is non-empty, made of basic
characters only, and does not lead with a digit. -/
def unchangedOK (cps : List Nat) : Bool :=
  !cps.isEmpty && cps.all isBasicCode && !(isDigitCode (cps.headD 0))

/-- Modelled from the spec: the escaped form — reserved marker, the basic
characters, an underscore delimiter when any basic character exists, then
the variable-length-coded insertion deltas of the non-basic characters. -/
def escapeCodes (cps : List Nat) : List Nat :=
  tnMarker ++ cps.filter isBasicCode ++
    (if (cps.filter isBasicCode).isEmpty then [] else [95]) ++
    (((emitDeltas (cps.map isBasicCode) 0 (sortPairs (nbPairs cps))).map
        encodeVarint).flatten.map digitChar)

/-- Modelled from the spec: `encode` for a single token over valid Unicode
input — identity on already-legal non-digit-leading tokens, escaped form
otherwise. -/
def encodeIdentCodes (cps : List Nat) : List Nat :=
  if unchangedOK cps then cps else escapeCodes cps

/-- Split an escaped payload at its last underscore into (basic characters,
varint digit characters); no underscore means no basic characters. -/
def splitLastU (rest : List Nat) : List Nat × List Nat :=
  match (rest.reverse).dropWhile (fun c => !(c == 95)) with
  | [] => ([], rest)
  | _ :: bRev =>
      (bRev.reverse, ((rest.reverse).takeWhile (fun c => !(c == 95))).reverse)

/-- Modelled from the spec: `decode` — defined only for tokens carrying the
reserved marker; reconstructs the original code points. -/
def decodeIdentCodes (tok : List Nat) : Option (List Nat) :=
  if tok.take 4 = tnMarker then
    some (decodeCore (splitLastU (tok.drop 4)).1 0
      (parseVarAux ((splitLastU (tok.drop 4)).2.map charDigit) 0 1))
  else none

/-- Modelled from the spec: the lossy fallback — every illegal byte becomes
`_`, a leading digit is prefixed with `_`, an empty input becomes `_`. -/
def fallbackCodes (bs : List Nat) : List Nat :=
  match bs.map (fun b => if isBasicCode b then b else 95) with
  | [] => [95]
  | c :: subst => if isDigitCode c then 95 :: c :: subst else c :: subst

/-- A UTF-8 continuation byte. -/
def contB (c : Nat) : Bool := 128 ≤ c && c ≤ 191

/-- Allowed first-continuation range for a three-byte lead (excludes
overlong forms and surrogates). -/
def c3 (b c : Nat) : Bool :=
  if b == 224 then 160 ≤ c && c ≤ 191
  else if b == 237 then 128 ≤ c && c ≤ 159
  else contB c

/-- Allowed first-continuation range for a four-byte lead (excludes overlong
forms and values beyond U+10FFFF). -/
def c4 (b c : Nat) : Bool :=
  if b == 240 then 144 ≤ c && c ≤ 191
  else if b == 244 then 128 ≤ c && c ≤ 143
  else contB c

/-- Strict UTF-8: decode one sequence — a lead byte plus continuation bytes
taken from `rest`; returns the code point and the remaining bytes. -/
def utf8Step (b : Nat) (rest : List Nat) : Option (Nat × List Nat) :=
  if b < 128 then some (b, rest)
  else if 194 ≤ b && b ≤ 223 then
    match rest with
    | c :: r => if contB c then some ((b - 192) * 64 + (c - 128), r) else none
    | [] => none
  else if 224 ≤ b && b ≤ 239 then
    match rest with
    | c :: d :: r =>
        if c3 b c && contB d then
          some ((b - 224) * 4096 + (c - 128) * 64 + (d - 128), r)
        else none
    | _ => none
  else if 240 ≤ b && b ≤ 244 then
    match rest with
    | c :: d :: e :: r =>
        if c4 b c && contB d && contB e then
          some ((b - 240) * 262144 + (c - 128) * 4096 + (d - 128) * 64 +
            (e - 128), r)
        else none
    | _ => none
  else none

/-- Fuelled driver for strict UTF-8 decoding; a fuel of at least the byte
count suffices. -/
def utf8DecodeAux : Nat → List Nat → Option (List Nat)
  | _, [] => some []
  | 0, _ :: _ => none
  | fuel + 1, b :: rest =>
      match utf8Step b rest with
      | some (cp, r) => (utf8DecodeAux fuel r).map (fun cs => cp :: cs)
      | none => none

/-- Strict UTF-8 decoding of a byte list into code points; `none` when the
bytes are not valid Unicode text. -/
def utf8Decode (bs : List Nat) : Option (List Nat) := utf8DecodeAux bs.length bs

/-- A requested name: either valid Unicode text (code points) or raw bytes. -/
inductive NameInput where
  | txt (cs : List Nat)
  | bytes (bs : List Nat)
deriving DecidableEq

/-- Decimal digit code points of a natural number (fuelled). -/
def natDigitsAux : Nat → Nat → List Nat
  | 0, n => [48 + n % 10]
  | fuel + 1, n =>
      if n < 10 then [48 + n] else natDigitsAux fuel (n / 10) ++ [48 + n % 10]

/-- Decimal digit code points of a natural number. -/
def natDigits (n : Nat) : List Nat := natDigitsAux n n

/-- The collision suffix `_N` as code points. -/
def sufCodes (n : Nat) : List Nat := 95 :: natDigits n

/-- Encode a single requested name: text goes through the codec; bytes are
first interpreted as UTF-8, falling back to lossy substitution when the
bytes are not valid Unicode text. -/
def encodeInput : NameInput → List Nat
  | .txt cs => encodeIdentCodes cs
  | .bytes bs =>
      match utf8Decode bs with
      | some cs => encodeIdentCodes cs
      | none => fallbackCodes bs

/-- Append the collision suffix `_N` to the original request (before any
encoding). -/
def sufInput : NameInput → Nat → NameInput
  | .txt cs, n => .txt (cs ++ sufCodes n)
  | .bytes bs, n => .bytes (bs ++ sufCodes n)

/-- Split a namespaced name at `:` delimiters (code point 58); an empty name
yields one empty segment. -/
def splitSegs : List Nat → List (List Nat)
  | [] => [[]]
  | c :: cs =>
      if c == 58 then [] :: splitSegs cs
      else (c :: (splitSegs cs).headD []) :: (splitSegs cs).tail

/-- Join segments with the `:` delimiter. -/
def joinSegs : List (List Nat) → List Nat
  | [] => []
  | [s] => s
  | s :: ss => s ++ 58 :: joinSegs ss

/-- Modelled from the spec: property-name encoding — each colon-delimited
segment is transcoded independently and the segments are re-joined. -/
def encodePropCodes (cps : List Nat) : List Nat :=
  joinSegs ((splitSegs cps).map encodeIdentCodes)

/-- Append the collision suffix to a text original (equivalently: to its
last segment, since the suffix contains no delimiter). -/
def sufText (cs : List Nat) (n : Nat) : List Nat := cs ++ sufCodes n

/-- A candidate suffix index is free when its encoded form is not already
taken and the suffixed original is not itself requested later in the batch. -/
def freeCand {α : Type} [DecidableEq α] (enc : α → List Nat) (suf : α → Nat → α)
    (taken : List (List Nat)) (later : List α) (r : α) (n : Nat) : Bool :=
  decide (enc (suf r n) ∉ taken ∧ suf r n ∉ later)

/-- Modelled from the spec: resolve one request — the literal (encoded)
request is used when free; otherwise the smallest suffix `_N` whose encoding
is free and which is not literally requested later in the batch. -/
def pickName {α : Type} [DecidableEq α] (enc : α → List Nat) (suf : α → Nat → α)
    (taken : List (List Nat)) (later : List α) (r : α) : List Nat :=
  if enc r ∈ taken then
    match ((List.range (taken.length + later.length + 1)).map (· + 1)).find?
        (freeCand enc suf taken later r) with
    | some n => enc (suf r n)
    | none => enc r
  else enc r

/-- Modelled from the spec: batch uniquification — requests are resolved in
order, every resolved name joins the taken set. -/
def uniquifyCore {α : Type} [DecidableEq α] (enc : α → List Nat)
    (suf : α → Nat → α) : List α → List (List Nat) → List (List Nat)
  | [], _ => []
  | r :: rest, taken =>
      pickName enc suf taken rest r ::
        uniquifyCore enc suf rest (pickName enc suf taken rest r :: taken)

/-- Modelled from the spec: `getValidPrimNames` — encode and uniquify a
batch of prim names against a reserved set. -/
def getValidPrimNamesM (req : List NameInput) (reserved : List (List Nat)) :
    List (List Nat) :=
  uniquifyCore encodeInput sufInput req reserved

/-- Modelled from the spec: `getValidChildNames` — like prim names, with the
scope's existing child names as the reserved set. -/
def getValidChildNamesM (children : List (List Nat)) (req : List NameInput) :
    List (List Nat) :=
  uniquifyCore encodeInput sufInput req children

/-- Modelled from the spec: `getValidPropertyNames` — namespaced names;
collisions are resolved against the fully joined names, and the suffix lands
on the last segment of the original (before encoding). -/
def getValidPropertyNamesM (req : List (List Nat))
    (reserved : List (List Nat)) : List (List Nat) :=
  uniquifyCore encodePropCodes sufText req reserved

/-- Modelled from the spec: single-name `getValidPrimName` with the
process-wide transcoding toggle: enabled uses the codec, disabled forces the
lossy fallback on the raw characters. -/
def getValidPrimNameCfg (enabled : Bool) (inp : NameInput) : List Nat :=
  if enabled then encodeInput inp
  else
    match inp with
    | .txt cs => fallbackCodes cs
    | .bytes bs => fallbackCodes bs

/-- Modelled from the spec: parsing the `USDEX_ENABLE_OMNI_TRANSCODING`
override string as a boolean; `none` when not a boolean. -/
def parseBoolSetting (v : String) : Option Bool :=
  if v = "true" ∨ v = "True" ∨ v = "TRUE" ∨ v = "1" then some true
  else if v = "false" ∨ v = "False" ∨ v = "FALSE" ∨ v = "0" then some false
  else none

/-- Modelled from the spec: the effective transcoding setting — default
enabled; a non-boolean override silently degrades to disabled (with a
diagnostic, never a hard failure). -/
def transcodingEffective (raw : Option String) : Bool :=
  match raw with
  | none => true
  | some v => (parseBoolSetting v).getD false

/-- Modelled from the spec: whether the override produces a diagnostic — any
override that results in the disabled state is reported. -/
def settingDiagnostic (raw : Option String) : Bool :=
  match raw with
  | none => false
  | some _ => !transcodingEffective raw

/-- Modelled from the spec: ValidChildNameCache state for one scope —
`none` is Uninitialized; `some used` holds the accumulated Used Set. -/
def cacheGetNames (children : List (List Nat))
    (st : Option (List (List Nat))) (req : List NameInput) :
    List (List Nat) × Option (List (List Nat)) :=
  (uniquifyCore encodeInput sufInput req (st.getD children),
   some (st.getD children ++ uniquifyCore encodeInput sufInput req (st.getD children)))

/-- Modelled from the spec: `clear` discards the Used Set and returns the
scope to Uninitialized. -/
def cacheClear (_ : Option (List (List Nat))) : Option (List (List Nat)) :=
  none

/-- Code points of a Lean string (all strings in scope are valid Unicode). -/
def strCodes (s : String) : List Nat := s.data.map Char.toNat

/-- A legal identifier token: non-empty, basic characters only, not leading
with a digit. -/
def isLegalToken (cs : List Nat) : Bool :=
  !cs.isEmpty && cs.all isBasicCode && !(isDigitCode (cs.headD 0))


/-- Big-endian decimal value of digit code points, inverse of `natDigits`. -/
def decVal : List Nat → Nat → Nat
  | [], acc => acc
  | d :: ds, acc => decVal ds (acc * 10 + (d - 48))

/-- The original request suffixed `k` times at most once: `0` means the
literal request, `k + 1` the request with suffix `_`(k+1). -/
def sufTextOpt (r : List Nat) : Nat → List Nat
  | 0 => r
  | k + 1 => r ++ sufCodes (k + 1)

/-! ### Variable-length integer lemmas -/

theorem encodeVarintAux_fuel (f : Nat) : ∀ g q, q < f → q < g →
    encodeVarintAux f q = encodeVarintAux g q := by
  induction f with
  | zero => intro g q h; omega
  | succ f ih =>
      intro g q hf hg
      match g, hg with
      | g + 1, _ =>
        simp only [encodeVarintAux]
        by_cases h31 : q < 31
        · simp [h31]
        · simp only [h31, if_false]
          have hle : (q - 31) / 31 ≤ q - 31 := Nat.div_le_self _ _
          have h1 : (q - 31) / 31 < f := by omega
          have h2 : (q - 31) / 31 < g := by omega
          rw [ih g _ h1 h2]

theorem encodeVarint_base (q : Nat) (h : q < 31) : encodeVarint q = [q] := by
  simp [encodeVarint, encodeVarintAux, h]

theorem encodeVarint_step (q : Nat) (h : ¬ q < 31) :
    encodeVarint q = (31 + (q - 31) % 31) :: encodeVarint ((q - 31) / 31) := by
  have hlt : (q - 31) / 31 ≤ q - 31 := Nat.div_le_self _ _
  have h1 : encodeVarintAux (q + 1) q =
      (31 + (q - 31) % 31) :: encodeVarintAux q ((q - 31) / 31) := by
    simp [encodeVarintAux, h]
  have h2 : encodeVarintAux q ((q - 31) / 31) =
      encodeVarintAux ((q - 31) / 31 + 1) ((q - 31) / 31) :=
    encodeVarintAux_fuel q ((q - 31) / 31 + 1) ((q - 31) / 31) (by omega) (by omega)
  show encodeVarintAux (q + 1) q = _
  rw [h1, h2]; rfl

theorem parse_encodeVarint (q : Nat) : ∀ rest acc w,
    parseVarAux (encodeVarint q ++ rest) acc w = (acc + q * w) :: parseVarAux rest 0 1 := by
  induction q using Nat.strong_induction_on with
  | _ q ih =>
    intro rest acc w
    by_cases h31 : q < 31
    · rw [encodeVarint_base q h31]
      simp [parseVarAux, h31]
    · rw [encodeVarint_step q h31]
      have hlt : (q - 31) / 31 < q := by
        have := Nat.div_le_self (q - 31) 31; omega
      simp only [List.cons_append, parseVarAux]
      have hd : ¬ (31 + (q - 31) % 31 < 31) := by omega
      simp only [hd, if_false, List.append_eq]
      rw [ih _ hlt]
      congr 1
      have hm : (q - 31) % 31 < 31 := Nat.mod_lt _ (by omega)
      generalize ha : (q - 31) / 31 = a at *
      generalize hb : (q - 31) % 31 = b at *
      have hq : q = 31 + 31 * a + b := by
        have := Nat.div_add_mod (q - 31) 31
        omega
      subst hq; ring

theorem encodeVarint_digits (q : Nat) : ∀ d ∈ encodeVarint q, d < 62 := by
  induction q using Nat.strong_induction_on with
  | _ q ih =>
    by_cases h31 : q < 31
    · rw [encodeVarint_base q h31]; intro d hd; simp at hd; omega
    · rw [encodeVarint_step q h31]
      intro d hd
      rcases List.mem_cons.mp hd with h | h
      · have : (q - 31) % 31 < 31 := Nat.mod_lt _ (by omega)
        omega
      · exact ih _ (by have := Nat.div_le_self (q - 31) 31; omega) d h

theorem charDigit_digitChar : ∀ d < 62, charDigit (digitChar d) = d := by decide

theorem digitChar_ne_95 : ∀ d < 62, digitChar d ≠ 95 := by decide

theorem digitChar_basic : ∀ d < 62, isBasicCode (digitChar d) = true := by decide

/-! ### Mask and insertion lemmas -/

theorem countT_take_le (ms : List Bool) : ∀ p, countT (ms.take p) ≤ countT ms := by
  induction ms with
  | nil => intro p; simp [countT]
  | cons b l ih =>
      intro p
      cases p with
      | zero => simp [countT]
      | succ p => simp only [List.take_succ_cons, countT]; have := ih p; omega

theorem maskFilter_length (ms : List Bool) : ∀ cs : List Nat,
    ms.length = cs.length → (maskFilter ms cs).length = countT ms := by
  induction ms with
  | nil => intro cs h; simp [maskFilter, countT]
  | cons b l ih =>
      intro cs h
      cases cs with
      | nil => simp at h
      | cons c cs =>
          have h' : l.length = cs.length := by simpa using h
          have hrec := ih cs h'
          cases b <;> simp [maskFilter, countT, hrec] <;> omega

theorem setT_length (ms : List Bool) : ∀ p, (setT ms p).length = ms.length := by
  induction ms with
  | nil => intro p; simp [setT]
  | cons b l ih =>
      intro p
      cases p with
      | zero => simp [setT]
      | succ p => simp [setT, ih p]

theorem getD_setT_other (ms : List Bool) : ∀ p q, q ≠ p →
    (setT ms p).getD q false = ms.getD q false := by
  induction ms with
  | nil => intro p q _; simp [setT]
  | cons b l ih =>
      intro p q hne
      cases p with
      | zero =>
          cases q with
          | zero => omega
          | succ q => simp [setT]
      | succ p =>
          cases q with
          | zero => simp [setT]
          | succ q => simpa [setT] using ih p q (by omega)

theorem maskFilter_setT (ms : List Bool) : ∀ (cs : List Nat) (p : Nat),
    ms.length = cs.length → p < ms.length → ms.getD p false = false →
    maskFilter (setT ms p) cs =
      insertAt (countT (ms.take p)) (cs.getD p 0) (maskFilter ms cs) := by
  induction ms with
  | nil => intro cs p _ hp _; simp at hp
  | cons b l ih =>
      intro cs p hlen hp hfalse
      cases cs with
      | nil => simp at hlen
      | cons c cs =>
          cases p with
          | zero =>
              simp only [List.getD_cons_zero] at hfalse
              subst hfalse
              simp [setT, maskFilter, countT, insertAt]
          | succ p =>
              simp only [List.getD_cons_succ] at hfalse
              have hlen' : l.length = cs.length := by simpa using hlen
              have hp' : p < l.length := by simpa using hp
              have hrec := ih cs p hlen' hp' hfalse
              cases b with
              | true =>
                  simp only [setT, maskFilter, List.take_succ_cons, countT,
                    List.getD_cons_succ, if_true, hrec]
                  rw [Nat.add_comm 1 (countT (List.take p l))]
                  simp [insertAt]
              | false =>
                  simp only [setT, maskFilter, List.take_succ_cons, countT,
                    List.getD_cons_succ, hrec]
                  simp

theorem maskFilter_allTrue (ms : List Bool) : ∀ cs : List Nat,
    ms.length = cs.length → (∀ p, p < ms.length → ms.getD p false = true) →
    maskFilter ms cs = cs := by
  induction ms with
  | nil =>
      intro cs h _
      cases cs with
      | nil => rfl
      | cons c cs => simp at h
  | cons b l ih =>
      intro cs hlen hall
      cases cs with
      | nil => simp at hlen
      | cons c cs =>
          have hb : b = true := by simpa using hall 0 (by simp)
          subst hb
          simp only [maskFilter, if_true]
          rw [ih cs (by simpa using hlen)]
          intro p hp
          simpa using hall (p + 1) (by simpa using Nat.succ_lt_succ hp)

theorem maskFilter_map (cps : List Nat) :
    maskFilter (cps.map isBasicCode) cps = cps.filter isBasicCode := by
  induction cps with
  | nil => rfl
  | cons c cs ih =>
      simp only [List.map_cons, maskFilter, List.filter_cons]
      cases h : isBasicCode c with
      | true => simp [ih]
      | false => simp [ih]

theorem getD_map_basic (cps : List Nat) : ∀ p, p < cps.length →
    (cps.map isBasicCode).getD p false = isBasicCode (cps.getD p 0) := by
  induction cps with
  | nil => intro p hp; simp at hp
  | cons c cs ih =>
      intro p hp
      cases p with
      | zero => simp
      | succ p => simpa using ih p (by simpa using hp)

/-! ### Indexed pairs and sorting lemmas -/

theorem withIdx_facts (cs : List Nat) : ∀ k vp, vp ∈ withIdx k cs →
    k ≤ vp.2 ∧ vp.2 - k < cs.length ∧ cs.getD (vp.2 - k) 0 = vp.1 := by
  induction cs with
  | nil => intro k vp h; simp [withIdx] at h
  | cons c cs ih =>
      intro k vp h
      rcases List.mem_cons.mp h with h | h
      · subst h; simp
      · obtain ⟨h1, h2, h3⟩ := ih (k + 1) vp h
        refine ⟨by omega, by simp; omega, ?_⟩
        have : vp.2 - k = (vp.2 - (k + 1)) + 1 := by omega
        rw [this]
        simpa using h3

theorem withIdx_mem_of (cs : List Nat) : ∀ k j, j < cs.length →
    (cs.getD j 0, k + j) ∈ withIdx k cs := by
  induction cs with
  | nil => intro k j h; simp at h
  | cons c cs ih =>
      intro k j h
      cases j with
      | zero => simp [withIdx]
      | succ j =>
          have := ih (k + 1) j (by simpa using h)
          simp only [withIdx, List.mem_cons]
          right
          simpa [Nat.add_comm, Nat.add_assoc, Nat.add_left_comm] using this

theorem withIdx_pairwise (cs : List Nat) : ∀ k,
    (withIdx k cs).Pairwise (fun a b => a.2 < b.2) := by
  induction cs with
  | nil => intro k; simp [withIdx]
  | cons c cs ih =>
      intro k
      simp only [withIdx, List.pairwise_cons]
      constructor
      · intro b hb
        have := (withIdx_facts cs (k + 1) b hb).1
        simp; omega
      · exact ih (k + 1)

theorem insertPair_mem (a : Nat × Nat) : ∀ (l : List (Nat × Nat)) x,
    x ∈ insertPair a l ↔ x = a ∨ x ∈ l := by
  intro l
  induction l with
  | nil => intro x; simp [insertPair]
  | cons b l ih =>
      intro x
      simp only [insertPair]
      by_cases h : pairLE a b = true
      · simp [h, List.mem_cons]
      · rw [if_neg h]
        simp only [List.mem_cons, ih x]
        tauto

theorem insertPair_perm (a : Nat × Nat) : ∀ l : List (Nat × Nat),
    (insertPair a l).Perm (a :: l) := by
  intro l
  induction l with
  | nil => simp [insertPair]
  | cons b l ih =>
      simp only [insertPair]
      by_cases h : pairLE a b = true
      · simp [h]
      · simp only [h, if_false]
        exact (ih.cons b).trans (List.Perm.swap a b l)

theorem sortPairs_perm : ∀ l : List (Nat × Nat), (sortPairs l).Perm l := by
  intro l
  induction l with
  | nil => simp [sortPairs]
  | cons a l ih =>
      exact (insertPair_perm a (sortPairs l)).trans (ih.cons a)

theorem pairLE_total (a b : Nat × Nat) : pairLE a b = true ∨ pairLE b a = true := by
  simp only [pairLE, decide_eq_true_eq]
  omega

theorem pairLE_trans (a b c : Nat × Nat) (h1 : pairLE a b = true)
    (h2 : pairLE b c = true) : pairLE a c = true := by
  simp only [pairLE, decide_eq_true_eq] at *
  omega

theorem insertPair_sorted (a : Nat × Nat) : ∀ l : List (Nat × Nat),
    l.Pairwise (fun x y => pairLE x y = true) →
    (insertPair a l).Pairwise (fun x y => pairLE x y = true) := by
  intro l
  induction l with
  | nil => intro _; simp [insertPair]
  | cons b l ih =>
      intro hs
      rw [List.pairwise_cons] at hs
      obtain ⟨hb, hl⟩ := hs
      simp only [insertPair]
      by_cases h : pairLE a b = true
      · rw [if_pos h, List.pairwise_cons]
        constructor
        · intro x hx
          rcases List.mem_cons.mp hx with rfl | hx
          · exact h
          · exact pairLE_trans a b x h (hb x hx)
        · rw [List.pairwise_cons]; exact ⟨hb, hl⟩
      · rw [if_neg h, List.pairwise_cons]
        constructor
        · intro x hx
          rcases (insertPair_mem a l x).mp hx with hxa | hx
          · rw [hxa]
            rcases pairLE_total a b with h' | h'
            · exact absurd h' h
            · exact h'
          · exact hb x hx
        · exact ih hl

theorem sortPairs_sorted : ∀ l : List (Nat × Nat),
    (sortPairs l).Pairwise (fun x y => pairLE x y = true) := by
  intro l
  induction l with
  | nil => simp [sortPairs]
  | cons a l ih => exact insertPair_sorted a (sortPairs l) ih

theorem sortPairs_value_sorted (l : List (Nat × Nat)) :
    (sortPairs l).Pairwise (fun x y => x.1 ≤ y.1) := by
  refine (sortPairs_sorted l).imp ?_
  intro a b h
  simp only [pairLE, decide_eq_true_eq] at h
  omega

/-! ### Replaying deltas reconstructs the masked string -/

theorem getD_setT_self (ms : List Bool) : ∀ p, p < ms.length →
    (setT ms p).getD p false = true := by
  induction ms with
  | nil => intro p hp; simp at hp
  | cons b l ih =>
      intro p hp
      cases p with
      | zero => simp [setT]
      | succ p => simpa [setT] using ih p (by simpa using hp)

theorem getD_true_lt (ms : List Bool) : ∀ q, ms.getD q false = true →
    q < ms.length := by
  induction ms with
  | nil => intro q h; simp [List.getD] at h
  | cons b l ih =>
      intro q h
      cases q with
      | zero => simp
      | succ q => simpa using ih q (by simpa using h)

theorem getD_setT_true (ms : List Bool) (p q : Nat)
    (h : ms.getD q false = true) : (setT ms p).getD q false = true := by
  by_cases hpq : q = p
  · subst hpq
    exact getD_setT_self ms q (getD_true_lt ms q h)
  · rw [getD_setT_other ms p q hpq]; exact h

theorem setMany_length : ∀ (ins : List (Nat × Nat)) (ms : List Bool),
    (setMany ins ms).length = ms.length := by
  intro ins
  induction ins with
  | nil => intro ms; rfl
  | cons vp rest ih =>
      intro ms
      obtain ⟨v, p⟩ := vp
      simp only [setMany]
      rw [ih (setT ms p), setT_length]

theorem getD_setMany_true : ∀ (ins : List (Nat × Nat)) (ms : List Bool) (q : Nat),
    ms.getD q false = true → (setMany ins ms).getD q false = true := by
  intro ins
  induction ins with
  | nil => intro ms q h; exact h
  | cons vp rest ih =>
      intro ms q h
      obtain ⟨v, p⟩ := vp
      simp only [setMany]
      exact ih (setT ms p) q (getD_setT_true ms p q h)

theorem getD_setMany_mem : ∀ (ins : List (Nat × Nat)) (ms : List Bool) (q : Nat),
    q < ms.length → (∃ vp ∈ ins, vp.2 = q) →
    (setMany ins ms).getD q false = true := by
  intro ins
  induction ins with
  | nil => intro ms q _ h; simp at h
  | cons vp rest ih =>
      intro ms q hq hex
      obtain ⟨v, p⟩ := vp
      simp only [setMany]
      obtain ⟨wp, hw, hwq⟩ := hex
      rcases List.mem_cons.mp hw with h1 | h1
      · have hpq : p = q := by rw [h1] at hwq; simpa using hwq
        rw [hpq]
        exact getD_setMany_true rest (setT ms q) q (getD_setT_self ms q hq)
      · exact ih (setT ms p) q (by rwa [setT_length]) ⟨wp, h1, hwq⟩

theorem decode_emit (cps : List Nat) : ∀ (ins : List (Nat × Nat)) (ms : List Bool)
    (prev : Nat),
    ms.length = cps.length →
    (∀ vp ∈ ins, vp.2 < cps.length ∧ cps.getD vp.2 0 = vp.1 ∧
      ms.getD vp.2 false = false) →
    (∀ vp ∈ ins, prev ≤ vp.1) →
    ins.Pairwise (fun a b => a.1 ≤ b.1) →
    ins.Pairwise (fun a b => a.2 ≠ b.2) →
    decodeCore (maskFilter ms cps) prev (emitDeltas ms prev ins) =
      maskFilter (setMany ins ms) cps := by
  intro ins
  induction ins with
  | nil => intro ms prev _ _ _ _ _; simp [emitDeltas, decodeCore, setMany]
  | cons vp rest ih =>
      obtain ⟨v, p⟩ := vp
      intro ms prev hlen hmem hprev hsort hpos
      obtain ⟨hplt, hgetv, hgetf⟩ := hmem (v, p) (List.mem_cons_self _ _)
      have hvprev : prev ≤ v := hprev (v, p) (List.mem_cons_self _ _)
      have hL : (maskFilter ms cps).length = countT ms :=
        maskFilter_length ms cps hlen
      have hidx : countT (ms.take p) ≤ countT ms := countT_take_le ms p
      simp only [emitDeltas, decodeCore, setMany]
      rw [hL]
      have harith : (v - prev) * (countT ms + 1) + countT (ms.take p) =
          countT (ms.take p) + (countT ms + 1) * (v - prev) := by ring
      rw [harith]
      have hdiv : (countT (ms.take p) + (countT ms + 1) * (v - prev)) /
          (countT ms + 1) = v - prev := by
        rw [Nat.add_mul_div_left _ _ (by omega : 0 < countT ms + 1),
          Nat.div_eq_of_lt (by omega), Nat.zero_add]
      have hmod : (countT (ms.take p) + (countT ms + 1) * (v - prev)) %
          (countT ms + 1) = countT (ms.take p) := by
        rw [Nat.add_mul_mod_self_left, Nat.mod_eq_of_lt (by omega)]
      rw [hdiv, hmod]
      have hval : prev + (v - prev) = v := by omega
      rw [hval]
      have hins : insertAt (countT (ms.take p)) v (maskFilter ms cps) =
          maskFilter (setT ms p) cps := by
        rw [maskFilter_setT ms cps p hlen (by omega) hgetf, hgetv]
      rw [hins]
      have hpairpos := (List.pairwise_cons.mp hpos).1
      have hpairval := (List.pairwise_cons.mp hsort).1
      exact ih (setT ms p) v (by rw [setT_length]; exact hlen)
        (fun wp hw => by
          obtain ⟨h1, h2, h3⟩ := hmem wp (List.mem_cons_of_mem _ hw)
          refine ⟨h1, h2, ?_⟩
          rw [getD_setT_other ms p wp.2 (fun he => (hpairpos wp hw) he.symm)]
          exact h3)
        (fun wp hw => hpairval wp hw)
        (List.pairwise_cons.mp hsort).2
        (List.pairwise_cons.mp hpos).2

/-! ### Round-trip of the escaped form -/

theorem nbPairs_mem (cps : List Nat) (vp : Nat × Nat) (h : vp ∈ nbPairs cps) :
    vp.2 < cps.length ∧ cps.getD vp.2 0 = vp.1 ∧ isBasicCode vp.1 = false := by
  simp only [nbPairs, List.mem_filter] at h
  obtain ⟨h1, h2⟩ := h
  obtain ⟨ha, hb, hc⟩ := withIdx_facts cps 0 vp h1
  simp only [Nat.sub_zero] at hb hc
  refine ⟨hb, hc, by simpa using h2⟩

theorem nbPairs_pairwise (cps : List Nat) :
    (nbPairs cps).Pairwise (fun a b => a.2 ≠ b.2) := by
  have h := (withIdx_pairwise cps 0).filter (fun vp => !(isBasicCode vp.1))
  exact h.imp (fun hlt => by omega)

theorem decodeCore_escape (cps : List Nat) :
    decodeCore (cps.filter isBasicCode) 0
      (emitDeltas (cps.map isBasicCode) 0 (sortPairs (nbPairs cps))) = cps := by
  have hperm := sortPairs_perm (nbPairs cps)
  rw [← maskFilter_map cps]
  rw [decode_emit cps (sortPairs (nbPairs cps)) (cps.map isBasicCode) 0
    (by simp)
    (fun vp hvp => by
      have hv := nbPairs_mem cps vp (hperm.mem_iff.mp hvp)
      refine ⟨hv.1, hv.2.1, ?_⟩
      rw [getD_map_basic cps vp.2 hv.1, hv.2.1, hv.2.2])
    (fun vp _ => Nat.zero_le _)
    (sortPairs_value_sorted (nbPairs cps))
    (((hperm.pairwise_iff (by intro a b h; exact Ne.symm h)).mpr
      (nbPairs_pairwise cps)))]
  apply maskFilter_allTrue
  · rw [setMany_length, List.length_map]
  · intro p hp
    rw [setMany_length, List.length_map] at hp
    by_cases hb : isBasicCode (cps.getD p 0) = true
    · exact getD_setMany_true _ _ p (by rw [getD_map_basic cps p hp]; exact hb)
    · apply getD_setMany_mem _ _ p (by rw [List.length_map]; exact hp)
      refine ⟨(cps.getD p 0, p), ?_, rfl⟩
      rw [hperm.mem_iff]
      simp only [nbPairs, List.mem_filter]
      constructor
      · simpa using withIdx_mem_of cps 0 p hp
      · simp only [Bool.not_eq_true] at hb
        simp only [List.getD_eq_getElem?_getD] at hb
        simp [hb]

theorem dropWhile_all (p : Nat → Bool) : ∀ xs ys : List Nat,
    (∀ x ∈ xs, p x = true) →
    List.dropWhile p (xs ++ ys) = List.dropWhile p ys := by
  intro xs
  induction xs with
  | nil => intro ys _; rfl
  | cons x xs ih =>
      intro ys hall
      have hx : p x = true := hall x (List.mem_cons_self _ _)
      simp only [List.cons_append, List.dropWhile_cons, hx, if_true]
      exact ih ys (fun y hy => hall y (List.mem_cons_of_mem _ hy))

theorem takeWhile_all (p : Nat → Bool) : ∀ xs ys : List Nat,
    (∀ x ∈ xs, p x = true) →
    List.takeWhile p (xs ++ ys) = xs ++ List.takeWhile p ys := by
  intro xs
  induction xs with
  | nil => intro ys _; rfl
  | cons x xs ih =>
      intro ys hall
      have hx : p x = true := hall x (List.mem_cons_self _ _)
      simp only [List.cons_append, List.takeWhile_cons, hx, if_true]
      rw [ih ys (fun y hy => hall y (List.mem_cons_of_mem _ hy))]

theorem splitLastU_with (B D : List Nat) (hD : ∀ c ∈ D, c ≠ 95) :
    splitLastU (B ++ 95 :: D) = (B, D) := by
  have hrev : (B ++ 95 :: D).reverse = D.reverse ++ 95 :: B.reverse := by
    simp
  have hDrev : ∀ c ∈ D.reverse, (fun c => !(c == 95)) c = true := by
    intro c hc
    simp only [Bool.not_eq_true', beq_eq_false_iff_ne]
    exact hD c (List.mem_reverse.mp hc)
  have hdrop : (B ++ 95 :: D).reverse.dropWhile (fun c => !(c == 95)) =
      95 :: B.reverse := by
    rw [hrev, dropWhile_all _ _ _ hDrev]
    simp [List.dropWhile_cons]
  have htake : (B ++ 95 :: D).reverse.takeWhile (fun c => !(c == 95)) =
      D.reverse := by
    rw [hrev, takeWhile_all _ _ _ hDrev]
    simp [List.takeWhile_cons]
  simp only [splitLastU, hdrop, htake]
  simp

theorem splitLastU_none (D : List Nat) (hD : ∀ c ∈ D, c ≠ 95) :
    splitLastU D = ([], D) := by
  have hDrev : ∀ c ∈ D.reverse, (fun c => !(c == 95)) c = true := by
    intro c hc
    simp only [Bool.not_eq_true', beq_eq_false_iff_ne]
    exact hD c (List.mem_reverse.mp hc)
  have hdrop : D.reverse.dropWhile (fun c => !(c == 95)) = [] := by
    have := dropWhile_all (fun c => !(c == 95)) D.reverse [] hDrev
    simpa using this
  simp only [splitLastU, hdrop]

theorem parse_flatten (deltas : List Nat) :
    parseVarAux ((deltas.map encodeVarint).flatten) 0 1 = deltas := by
  induction deltas with
  | nil => rfl
  | cons q ds ih =>
      simp only [List.map_cons, List.flatten_cons]
      rw [parse_encodeVarint q _ 0 1, ih]
      simp

theorem map_charDigit_digitChar (xs : List Nat) (h : ∀ d ∈ xs, d < 62) :
    (xs.map digitChar).map charDigit = xs := by
  induction xs with
  | nil => rfl
  | cons d ds ih =>
      simp only [List.map_cons]
      rw [charDigit_digitChar d (h d (List.mem_cons_self _ _)),
        ih (fun x hx => h x (List.mem_cons_of_mem _ hx))]

theorem digits_lt (cps : List Nat) : ∀ d ∈
    ((emitDeltas (cps.map isBasicCode) 0 (sortPairs (nbPairs cps))).map
      encodeVarint).flatten, d < 62 := by
  intro d hd
  rw [List.mem_flatten] at hd
  obtain ⟨l, hl, hdl⟩ := hd
  rw [List.mem_map] at hl
  obtain ⟨q, _, hq⟩ := hl
  exact encodeVarint_digits q d (hq ▸ hdl)

theorem digitList_ne_95 (cps : List Nat) : ∀ c ∈
    (((emitDeltas (cps.map isBasicCode) 0 (sortPairs (nbPairs cps))).map
      encodeVarint).flatten.map digitChar), c ≠ 95 := by
  intro c hc
  rw [List.mem_map] at hc
  obtain ⟨d, hd, hdc⟩ := hc
  have := digitChar_ne_95 d (digits_lt cps d hd)
  rw [← hdc]
  exact this

theorem escape_take4 (cps : List Nat) : (escapeCodes cps).take 4 = tnMarker := by
  simp only [escapeCodes, List.append_assoc]
  rw [show (4 : Nat) = tnMarker.length from rfl, List.take_left]

theorem escape_drop4 (cps : List Nat) : (escapeCodes cps).drop 4 =
    cps.filter isBasicCode ++
    ((if (cps.filter isBasicCode).isEmpty then [] else [95]) ++
      (((emitDeltas (cps.map isBasicCode) 0 (sortPairs (nbPairs cps))).map
        encodeVarint).flatten.map digitChar)) := by
  simp only [escapeCodes, List.append_assoc]
  rw [show (4 : Nat) = tnMarker.length from rfl, List.drop_left]

theorem escape_roundTrip (cps : List Nat) :
    decodeIdentCodes (escapeCodes cps) = some cps := by
  simp only [decodeIdentCodes]
  rw [if_pos (escape_take4 cps), escape_drop4]
  by_cases hb : (cps.filter isBasicCode).isEmpty
  · rw [if_pos hb]
    have hbe : cps.filter isBasicCode = [] := by
      simpa [List.isEmpty_iff] using hb
    rw [hbe]
    simp only [List.nil_append]
    rw [splitLastU_none _ (digitList_ne_95 cps)]
    simp only
    rw [map_charDigit_digitChar _ (digits_lt cps), parse_flatten]
    rw [show ([] : List Nat) = cps.filter isBasicCode from hbe.symm,
      decodeCore_escape]
  · rw [if_neg hb]
    have hassoc : cps.filter isBasicCode ++ ([95] ++
        (((emitDeltas (cps.map isBasicCode) 0 (sortPairs (nbPairs cps))).map
          encodeVarint).flatten.map digitChar)) =
        cps.filter isBasicCode ++ 95 ::
        (((emitDeltas (cps.map isBasicCode) 0 (sortPairs (nbPairs cps))).map
          encodeVarint).flatten.map digitChar) := by simp
    rw [hassoc, splitLastU_with _ _ (digitList_ne_95 cps)]
    simp only
    rw [map_charDigit_digitChar _ (digits_lt cps), parse_flatten,
      decodeCore_escape]

/-! ### Decimal suffixes and encoding injectivity -/

theorem natDigitsAux_fuel (f : Nat) : ∀ g q, q ≤ f → q ≤ g →
    natDigitsAux f q = natDigitsAux g q := by
  induction f with
  | zero =>
      intro g q hf _
      have hq : q = 0 := by omega
      subst hq
      cases g with
      | zero => rfl
      | succ g => simp [natDigitsAux]
  | succ f ih =>
      intro g q hf hg
      cases g with
      | zero =>
          have hq : q = 0 := by omega
          subst hq
          simp [natDigitsAux]
      | succ g =>
          simp only [natDigitsAux]
          by_cases h10 : q < 10
          · simp [h10]
          · simp only [h10, if_false]
            have h2 : q / 10 * 10 ≤ q := Nat.div_mul_le_self q 10
            rw [ih g (q / 10) (by omega) (by omega)]

theorem natDigits_base (n : Nat) (h : n < 10) : natDigits n = [48 + n] := by
  cases n with
  | zero => rfl
  | succ m =>
      simp only [natDigits, natDigitsAux]
      rw [if_pos h]

theorem natDigits_step (n : Nat) (h : ¬ n < 10) :
    natDigits n = natDigits (n / 10) ++ [48 + n % 10] := by
  have hpos : n ≠ 0 := by omega
  obtain ⟨m, hm⟩ : ∃ m, n = m + 1 := ⟨n - 1, by omega⟩
  subst hm
  simp only [natDigits, natDigitsAux, h, if_false]
  congr 1
  apply natDigitsAux_fuel
  · have h2 : (m + 1) / 10 * 10 ≤ m + 1 := Nat.div_mul_le_self (m + 1) 10
    omega
  · exact le_refl _

theorem decVal_append (ds : List Nat) : ∀ (es : List Nat) (acc : Nat),
    decVal (ds ++ es) acc = decVal es (decVal ds acc) := by
  induction ds with
  | nil => intro es acc; rfl
  | cons d ds ih =>
      intro es acc
      show decVal (ds ++ es) (acc * 10 + (d - 48)) = _
      exact ih es (acc * 10 + (d - 48))

theorem decVal_natDigits (n : Nat) : decVal (natDigits n) 0 = n := by
  induction n using Nat.strong_induction_on with
  | _ n ih =>
    by_cases h10 : n < 10
    · rw [natDigits_base n h10]
      simp only [decVal]
      omega
    · rw [natDigits_step n h10, decVal_append]
      rw [ih (n / 10) (Nat.div_lt_self (by omega) (by omega))]
      simp only [decVal]
      omega

theorem natDigits_inj (m n : Nat) (h : natDigits m = natDigits n) : m = n := by
  have hm := decVal_natDigits m
  have hn := decVal_natDigits n
  rw [h] at hm
  omega

theorem sufCodes_inj (m n : Nat) (h : sufCodes m = sufCodes n) : m = n := by
  simp only [sufCodes, List.cons.injEq] at h
  exact natDigits_inj m n h.2

theorem natDigits_range (n : Nat) : ∀ c ∈ natDigits n, 48 ≤ c ∧ c ≤ 57 := by
  induction n using Nat.strong_induction_on with
  | _ n ih =>
    by_cases h10 : n < 10
    · rw [natDigits_base n h10]
      intro c hc
      simp at hc
      omega
    · rw [natDigits_step n h10]
      intro c hc
      rcases List.mem_append.mp hc with h | h
      · exact ih (n / 10) (Nat.div_lt_self (by omega) (by omega)) c h
      · simp at h
        have : n % 10 < 10 := Nat.mod_lt _ (by omega)
        omega

theorem sufCodes_basic (n : Nat) : ∀ c ∈ sufCodes n, isBasicCode c = true := by
  intro c hc
  rcases List.mem_cons.mp hc with h | h
  · subst h; rfl
  · have := natDigits_range n c h
    simp only [isBasicCode]
    have h1 : (48 ≤ c && c ≤ 57) = true := by
      simp only [Bool.and_eq_true, decide_eq_true_eq]; omega
    rw [h1]
    rfl

theorem unchangedOK_suffix (cs : List Nat) (n : Nat) :
    unchangedOK (cs ++ sufCodes n) =
      (cs.all isBasicCode && !(isDigitCode (cs.headD 95))) := by
  simp only [unchangedOK]
  have hne : (cs ++ sufCodes n).isEmpty = false := by
    cases cs <;> simp [sufCodes]
  rw [hne]
  have hall : (cs ++ sufCodes n).all isBasicCode = cs.all isBasicCode := by
    rw [List.all_append]
    have : (sufCodes n).all isBasicCode = true := by
      rw [List.all_eq_true]
      exact sufCodes_basic n
    rw [this, Bool.and_true]
  rw [hall]
  cases cs with
  | nil => simp [sufCodes, isDigitCode]
  | cons c cs => simp

theorem encodeIdent_suffix_inj (cs : List Nat) (m n : Nat) (hmn : m ≠ n) :
    encodeIdentCodes (cs ++ sufCodes m) ≠ encodeIdentCodes (cs ++ sufCodes n) := by
  intro he
  have hsuf : sufCodes m ≠ sufCodes n := fun h => hmn (sufCodes_inj m n h)
  have hne : cs ++ sufCodes m ≠ cs ++ sufCodes n := by
    intro h
    exact hsuf (List.append_cancel_left h)
  by_cases hu : unchangedOK (cs ++ sufCodes m) = true
  · have hu' : unchangedOK (cs ++ sufCodes n) = true := by
      rw [unchangedOK_suffix] at hu ⊢
      exact hu
    rw [encodeIdentCodes, if_pos hu, encodeIdentCodes, if_pos hu'] at he
    exact hne he
  · have hu' : ¬ unchangedOK (cs ++ sufCodes n) = true := by
      rw [unchangedOK_suffix] at hu ⊢
      exact hu
    rw [encodeIdentCodes, if_neg hu, encodeIdentCodes, if_neg hu'] at he
    have hd := congrArg decodeIdentCodes he
    rw [escape_roundTrip, escape_roundTrip] at hd
    exact hne (Option.some.injEq _ _ ▸ hd)

/-! ### UTF-8 decoding under ASCII suffixes -/

theorem contB_ascii (c : Nat) (h : c < 128) : contB c = false := by
  simp only [contB]
  rw [decide_eq_false (by omega : ¬ 128 ≤ c), Bool.false_and]

theorem c3_ascii (b c : Nat) (h : c < 128) : c3 b c = false := by
  simp only [c3]
  by_cases hb : (b == 224) = true
  · rw [if_pos hb, decide_eq_false (by omega : ¬ 160 ≤ c), Bool.false_and]
  · rw [if_neg hb]
    by_cases hb' : (b == 237) = true
    · rw [if_pos hb', decide_eq_false (by omega : ¬ 128 ≤ c), Bool.false_and]
    · rw [if_neg hb']
      exact contB_ascii c h

theorem c4_ascii (b c : Nat) (h : c < 128) : c4 b c = false := by
  simp only [c4]
  by_cases hb : (b == 240) = true
  · rw [if_pos hb, decide_eq_false (by omega : ¬ 144 ≤ c), Bool.false_and]
  · rw [if_neg hb]
    by_cases hb' : (b == 244) = true
    · rw [if_pos hb', decide_eq_false (by omega : ¬ 128 ≤ c), Bool.false_and]
    · rw [if_neg hb']
      exact contB_ascii c h

theorem s_low (b : Nat) (rest : List Nat) (h : b < 128) :
    utf8Step b rest = some (b, rest) := by
  simp only [utf8Step]
  rw [if_pos h]

theorem class2_true (b : Nat) (h1 : 194 ≤ b) (h2 : b ≤ 223) :
    (decide (194 ≤ b) && decide (b ≤ 223)) = true := by
  simp only [Bool.and_eq_true, decide_eq_true_eq]
  exact ⟨h1, h2⟩

theorem class3_true (b : Nat) (h1 : 224 ≤ b) (h2 : b ≤ 239) :
    (decide (224 ≤ b) && decide (b ≤ 239)) = true := by
  simp only [Bool.and_eq_true, decide_eq_true_eq]
  exact ⟨h1, h2⟩

theorem class4_true (b : Nat) (h1 : 240 ≤ b) (h2 : b ≤ 244) :
    (decide (240 ≤ b) && decide (b ≤ 244)) = true := by
  simp only [Bool.and_eq_true, decide_eq_true_eq]
  exact ⟨h1, h2⟩

theorem s2 (b c : Nat) (r : List Nat) (h1 : 194 ≤ b) (h2 : b ≤ 223) :
    utf8Step b (c :: r) =
      if contB c then some ((b - 192) * 64 + (c - 128), r) else none := by
  simp only [utf8Step]
  rw [if_neg (by omega : ¬ b < 128), if_pos (class2_true b h1 h2)]

theorem s2_nil (b : Nat) (h1 : 194 ≤ b) (h2 : b ≤ 223) :
    utf8Step b [] = none := by
  simp only [utf8Step]
  rw [if_neg (by omega : ¬ b < 128), if_pos (class2_true b h1 h2)]

theorem s3 (b c d : Nat) (r : List Nat) (h1 : 224 ≤ b) (h2 : b ≤ 239) :
    utf8Step b (c :: d :: r) =
      if c3 b c && contB d then
        some ((b - 224) * 4096 + (c - 128) * 64 + (d - 128), r)
      else none := by
  simp only [utf8Step]
  rw [if_neg (by omega : ¬ b < 128),
    if_neg (by rw [decide_eq_false (by omega : ¬ b ≤ 223), Bool.and_false]; exact Bool.false_ne_true),
    if_pos (class3_true b h1 h2)]

theorem s3_nil (b : Nat) (h1 : 224 ≤ b) (h2 : b ≤ 239) :
    utf8Step b [] = none := by
  simp only [utf8Step]
  rw [if_neg (by omega : ¬ b < 128),
    if_neg (by rw [decide_eq_false (by omega : ¬ b ≤ 223), Bool.and_false]; exact Bool.false_ne_true),
    if_pos (class3_true b h1 h2)]

theorem s3_one (b c : Nat) (h1 : 224 ≤ b) (h2 : b ≤ 239) :
    utf8Step b [c] = none := by
  simp only [utf8Step]
  rw [if_neg (by omega : ¬ b < 128),
    if_neg (by rw [decide_eq_false (by omega : ¬ b ≤ 223), Bool.and_false]; exact Bool.false_ne_true),
    if_pos (class3_true b h1 h2)]

theorem s4 (b c d e : Nat) (r : List Nat) (h1 : 240 ≤ b) (h2 : b ≤ 244) :
    utf8Step b (c :: d :: e :: r) =
      if c4 b c && contB d && contB e then
        some ((b - 240) * 262144 + (c - 128) * 4096 + (d - 128) * 64 +
          (e - 128), r)
      else none := by
  simp only [utf8Step]
  rw [if_neg (by omega : ¬ b < 128),
    if_neg (by rw [decide_eq_false (by omega : ¬ b ≤ 223), Bool.and_false]; exact Bool.false_ne_true),
    if_neg (by rw [decide_eq_false (by omega : ¬ b ≤ 239), Bool.and_false]; exact Bool.false_ne_true),
    if_pos (class4_true b h1 h2)]

theorem s4_nil (b : Nat) (h1 : 240 ≤ b) (h2 : b ≤ 244) :
    utf8Step b [] = none := by
  simp only [utf8Step]
  rw [if_neg (by omega : ¬ b < 128),
    if_neg (by rw [decide_eq_false (by omega : ¬ b ≤ 223), Bool.and_false]; exact Bool.false_ne_true),
    if_neg (by rw [decide_eq_false (by omega : ¬ b ≤ 239), Bool.and_false]; exact Bool.false_ne_true),
    if_pos (class4_true b h1 h2)]

theorem s4_one (b c : Nat) (h1 : 240 ≤ b) (h2 : b ≤ 244) :
    utf8Step b [c] = none := by
  simp only [utf8Step]
  rw [if_neg (by omega : ¬ b < 128),
    if_neg (by rw [decide_eq_false (by omega : ¬ b ≤ 223), Bool.and_false]; exact Bool.false_ne_true),
    if_neg (by rw [decide_eq_false (by omega : ¬ b ≤ 239), Bool.and_false]; exact Bool.false_ne_true),
    if_pos (class4_true b h1 h2)]

theorem s4_two (b c d : Nat) (h1 : 240 ≤ b) (h2 : b ≤ 244) :
    utf8Step b [c, d] = none := by
  simp only [utf8Step]
  rw [if_neg (by omega : ¬ b < 128),
    if_neg (by rw [decide_eq_false (by omega : ¬ b ≤ 223), Bool.and_false]; exact Bool.false_ne_true),
    if_neg (by rw [decide_eq_false (by omega : ¬ b ≤ 239), Bool.and_false]; exact Bool.false_ne_true),
    if_pos (class4_true b h1 h2)]

theorem s_bad (b : Nat) (rest : List Nat) (h1 : ¬ b < 128)
    (h2 : ¬ (194 ≤ b ∧ b ≤ 223)) (h3 : ¬ (224 ≤ b ∧ b ≤ 239))
    (h4 : ¬ (240 ≤ b ∧ b ≤ 244)) : utf8Step b rest = none := by
  simp only [utf8Step]
  rw [if_neg h1,
    if_neg (by simp only [Bool.and_eq_true, decide_eq_true_eq]; omega),
    if_neg (by simp only [Bool.and_eq_true, decide_eq_true_eq]; omega),
    if_neg (by simp only [Bool.and_eq_true, decide_eq_true_eq]; omega)]

theorem utf8Step_length (b : Nat) (rest : List Nat) (cp : Nat) (r : List Nat)
    (h : utf8Step b rest = some (cp, r)) : r.length ≤ rest.length := by
  by_cases h1 : b < 128
  · rw [s_low b rest h1] at h
    cases h
    exact le_refl _
  by_cases h2 : 194 ≤ b ∧ b ≤ 223
  · rcases rest with _ | ⟨c, r'⟩
    · rw [s2_nil b h2.1 h2.2] at h; cases h
    · rw [s2 b c r' h2.1 h2.2] at h
      by_cases hc : contB c = true
      · rw [if_pos hc] at h
        cases h
        simp
      · rw [if_neg hc] at h; cases h
  by_cases h3 : 224 ≤ b ∧ b ≤ 239
  · rcases rest with _ | ⟨c, _ | ⟨d, r'⟩⟩
    · rw [s3_nil b h3.1 h3.2] at h; cases h
    · rw [s3_one b c h3.1 h3.2] at h; cases h
    · rw [s3 b c d r' h3.1 h3.2] at h
      by_cases hc : (c3 b c && contB d) = true
      · rw [if_pos hc] at h
        cases h
        simp
        omega
      · rw [if_neg hc] at h; cases h
  by_cases h4 : 240 ≤ b ∧ b ≤ 244
  · rcases rest with _ | ⟨c, _ | ⟨d, _ | ⟨e, r'⟩⟩⟩
    · rw [s4_nil b h4.1 h4.2] at h; cases h
    · rw [s4_one b c h4.1 h4.2] at h; cases h
    · rw [s4_two b c d h4.1 h4.2] at h; cases h
    · rw [s4 b c d e r' h4.1 h4.2] at h
      by_cases hc : (c4 b c && contB d && contB e) = true
      · rw [if_pos hc] at h
        cases h
        simp
        omega
      · rw [if_neg hc] at h; cases h
  · rw [s_bad b rest h1 h2 h3 h4] at h; cases h

theorem utf8Step_append_some (b : Nat) (rest asc : List Nat) (cp : Nat)
    (r : List Nat) (h : utf8Step b rest = some (cp, r)) :
    utf8Step b (rest ++ asc) = some (cp, r ++ asc) := by
  by_cases h1 : b < 128
  · rw [s_low b rest h1] at h
    cases h
    exact s_low b (rest ++ asc) h1
  by_cases h2 : 194 ≤ b ∧ b ≤ 223
  · rcases rest with _ | ⟨c, r'⟩
    · rw [s2_nil b h2.1 h2.2] at h; cases h
    · rw [s2 b c r' h2.1 h2.2] at h
      rw [List.cons_append, s2 b c (r' ++ asc) h2.1 h2.2]
      by_cases hc : contB c = true
      · rw [if_pos hc] at h
        cases h
        rw [if_pos hc]
      · rw [if_neg hc] at h; cases h
  by_cases h3 : 224 ≤ b ∧ b ≤ 239
  · rcases rest with _ | ⟨c, _ | ⟨d, r'⟩⟩
    · rw [s3_nil b h3.1 h3.2] at h; cases h
    · rw [s3_one b c h3.1 h3.2] at h; cases h
    · rw [s3 b c d r' h3.1 h3.2] at h
      rw [List.cons_append, List.cons_append, s3 b c d (r' ++ asc) h3.1 h3.2]
      by_cases hc : (c3 b c && contB d) = true
      · rw [if_pos hc] at h
        cases h
        rw [if_pos hc]
      · rw [if_neg hc] at h; cases h
  by_cases h4 : 240 ≤ b ∧ b ≤ 244
  · rcases rest with _ | ⟨c, _ | ⟨d, _ | ⟨e, r'⟩⟩⟩
    · rw [s4_nil b h4.1 h4.2] at h; cases h
    · rw [s4_one b c h4.1 h4.2] at h; cases h
    · rw [s4_two b c d h4.1 h4.2] at h; cases h
    · rw [s4 b c d e r' h4.1 h4.2] at h
      rw [List.cons_append, List.cons_append, List.cons_append,
        s4 b c d e (r' ++ asc) h4.1 h4.2]
      by_cases hc : (c4 b c && contB d && contB e) = true
      · rw [if_pos hc] at h
        cases h
        rw [if_pos hc]
      · rw [if_neg hc] at h; cases h
  · rw [s_bad b rest h1 h2 h3 h4] at h; cases h

theorem utf8Step_append_none (b : Nat) (rest asc : List Nat)
    (hasc : ∀ a ∈ asc, a < 128) (h : utf8Step b rest = none) :
    utf8Step b (rest ++ asc) = none := by
  by_cases h1 : b < 128
  · rw [s_low b rest h1] at h; cases h
  by_cases h2 : 194 ≤ b ∧ b ≤ 223
  · rcases rest with _ | ⟨c, r'⟩
    · simp only [List.nil_append]
      rcases asc with _ | ⟨a, as⟩
      · exact s2_nil b h2.1 h2.2
      · rw [s2 b a as h2.1 h2.2,
          if_neg (by rw [contB_ascii a (hasc a (List.mem_cons_self _ _))]; exact Bool.false_ne_true)]
    · rw [s2 b c r' h2.1 h2.2] at h
      by_cases hc : contB c = true
      · rw [if_pos hc] at h; cases h
      · rw [List.cons_append, s2 b c (r' ++ asc) h2.1 h2.2, if_neg hc]
  by_cases h3 : 224 ≤ b ∧ b ≤ 239
  · rcases rest with _ | ⟨c, _ | ⟨d, r'⟩⟩
    · simp only [List.nil_append]
      rcases asc with _ | ⟨a, _ | ⟨a', as⟩⟩
      · exact s3_nil b h3.1 h3.2
      · exact s3_one b a h3.1 h3.2
      · rw [s3 b a a' as h3.1 h3.2,
          if_neg (by rw [c3_ascii b a (hasc a (List.mem_cons_self _ _)), Bool.false_and]; exact Bool.false_ne_true)]
    · simp only [List.cons_append, List.nil_append]
      rcases asc with _ | ⟨a, as⟩
      · exact s3_one b c h3.1 h3.2
      · rw [s3 b c a as h3.1 h3.2,
          if_neg (by rw [contB_ascii a (hasc a (List.mem_cons_self _ _)), Bool.and_false]; exact Bool.false_ne_true)]
    · rw [s3 b c d r' h3.1 h3.2] at h
      by_cases hc : (c3 b c && contB d) = true
      · rw [if_pos hc] at h; cases h
      · rw [List.cons_append, List.cons_append, s3 b c d (r' ++ asc) h3.1 h3.2,
          if_neg hc]
  by_cases h4 : 240 ≤ b ∧ b ≤ 244
  · rcases rest with _ | ⟨c, _ | ⟨d, _ | ⟨e, r'⟩⟩⟩
    · simp only [List.nil_append]
      rcases asc with _ | ⟨a, _ | ⟨a', _ | ⟨a'', as⟩⟩⟩
      · exact s4_nil b h4.1 h4.2
      · exact s4_one b a h4.1 h4.2
      · exact s4_two b a a' h4.1 h4.2
      · rw [s4 b a a' a'' as h4.1 h4.2,
          if_neg (by rw [c4_ascii b a (hasc a (List.mem_cons_self _ _)), Bool.false_and, Bool.false_and]; exact Bool.false_ne_true)]
    · simp only [List.cons_append, List.nil_append]
      rcases asc with _ | ⟨a, _ | ⟨a', as⟩⟩
      · exact s4_one b c h4.1 h4.2
      · exact s4_two b c a h4.1 h4.2
      · rw [s4 b c a a' as h4.1 h4.2,
          if_neg (by rw [contB_ascii a (hasc a (List.mem_cons_self _ _)), Bool.and_false, Bool.false_and]; exact Bool.false_ne_true)]
    · simp only [List.cons_append, List.nil_append]
      rcases asc with _ | ⟨a, as⟩
      · exact s4_two b c d h4.1 h4.2
      · rw [s4 b c d a as h4.1 h4.2,
          if_neg (by rw [contB_ascii a (hasc a (List.mem_cons_self _ _)), Bool.and_false]; exact Bool.false_ne_true)]
    · rw [s4 b c d e r' h4.1 h4.2] at h
      by_cases hc : (c4 b c && contB d && contB e) = true
      · rw [if_pos hc] at h; cases h
      · rw [List.cons_append, List.cons_append, List.cons_append,
          s4 b c d e (r' ++ asc) h4.1 h4.2, if_neg hc]
  · exact s_bad b (rest ++ asc) h1 h2 h3 h4

theorem utf8Aux_ascii : ∀ (f : Nat) (asc : List Nat), asc.length ≤ f →
    (∀ a ∈ asc, a < 128) → utf8DecodeAux f asc = some asc := by
  intro f
  induction f with
  | zero =>
      intro asc hlen _
      rcases asc with _ | ⟨a, as⟩
      · rfl
      · simp at hlen
  | succ f ih =>
      intro asc hlen hasc
      rcases asc with _ | ⟨a, as⟩
      · rfl
      · simp only [utf8DecodeAux]
        rw [s_low a as (hasc a (List.mem_cons_self _ _))]
        show (utf8DecodeAux f as).map (fun cs => a :: cs) = some (a :: as)
        rw [ih as (by simpa using hlen) (fun x hx => hasc x (List.mem_cons_of_mem _ hx))]
        rfl

theorem utf8Aux_append_some (asc : List Nat) (hasc : ∀ a ∈ asc, a < 128) :
    ∀ (f : Nat) (bs cs : List Nat), bs.length ≤ f →
    utf8DecodeAux f bs = some cs →
    utf8DecodeAux (f + asc.length) (bs ++ asc) = some (cs ++ asc) := by
  intro f
  induction f with
  | zero =>
      intro bs cs hlen h
      rcases bs with _ | ⟨b, rest⟩
      · cases h
        simpa using utf8Aux_ascii asc.length asc (le_refl _) hasc
      · simp at hlen
  | succ f ih =>
      intro bs cs hlen h
      rcases bs with _ | ⟨b, rest⟩
      · cases h
        simpa using utf8Aux_ascii (f + 1 + asc.length) asc (by omega) hasc
      · simp only [utf8DecodeAux] at h
        cases hstep : utf8Step b rest with
        | none => rw [hstep] at h; cases h
        | some v =>
            obtain ⟨cp, r⟩ := v
            rw [hstep] at h
            have h' : (utf8DecodeAux f r).map (fun cs => cp :: cs) = some cs := h
            rw [Option.map_eq_some'] at h'
            obtain ⟨cs', hcs', rfl⟩ := h'
            rw [show f + 1 + asc.length = (f + asc.length) + 1 from by omega,
              List.cons_append]
            simp only [utf8DecodeAux]
            rw [utf8Step_append_some b rest asc cp r hstep]
            show (utf8DecodeAux (f + asc.length) (r ++ asc)).map
              (fun cs => cp :: cs) = some ((cp :: cs') ++ asc)
            rw [ih r cs'
              (by
                have := utf8Step_length b rest cp r hstep
                simp at hlen
                omega) hcs']
            rfl

theorem utf8Aux_append_none (asc : List Nat) (hasc : ∀ a ∈ asc, a < 128) :
    ∀ (f : Nat) (bs : List Nat), bs.length ≤ f →
    utf8DecodeAux f bs = none →
    utf8DecodeAux (f + asc.length) (bs ++ asc) = none := by
  intro f
  induction f with
  | zero =>
      intro bs hlen h
      rcases bs with _ | ⟨b, rest⟩
      · cases h
      · simp at hlen
  | succ f ih =>
      intro bs hlen h
      rcases bs with _ | ⟨b, rest⟩
      · cases h
      · simp only [utf8DecodeAux] at h
        rw [show f + 1 + asc.length = (f + asc.length) + 1 from by omega,
          List.cons_append]
        simp only [utf8DecodeAux]
        cases hstep : utf8Step b rest with
        | none =>
            rw [utf8Step_append_none b rest asc hasc hstep]
        | some v =>
            obtain ⟨cp, r⟩ := v
            rw [hstep] at h
            have h' : (utf8DecodeAux f r).map (fun cs => cp :: cs) = none := h
            rw [Option.map_eq_none'] at h'
            rw [utf8Step_append_some b rest asc cp r hstep]
            show (utf8DecodeAux (f + asc.length) (r ++ asc)).map
              (fun cs => cp :: cs) = none
            rw [ih r
              (by
                have := utf8Step_length b rest cp r hstep
                simp at hlen
                omega) h']
            rfl

theorem utf8Decode_append_some (bs asc cs : List Nat)
    (hasc : ∀ a ∈ asc, a < 128) (h : utf8Decode bs = some cs) :
    utf8Decode (bs ++ asc) = some (cs ++ asc) := by
  simp only [utf8Decode] at h ⊢
  rw [List.length_append]
  exact utf8Aux_append_some asc hasc bs.length bs cs (le_refl _) h

theorem utf8Decode_append_none (bs asc : List Nat)
    (hasc : ∀ a ∈ asc, a < 128) (h : utf8Decode bs = none) :
    utf8Decode (bs ++ asc) = none := by
  simp only [utf8Decode] at h ⊢
  rw [List.length_append]
  exact utf8Aux_append_none asc hasc bs.length bs (le_refl _) h

/-! ### Suffix injectivity for full name inputs -/

theorem sufCodes_ascii (n : Nat) : ∀ a ∈ sufCodes n, a < 128 := by
  intro a ha
  rcases List.mem_cons.mp ha with h | h
  · omega
  · have := natDigits_range n a h
    omega

theorem map_sub_of_basic : ∀ l : List Nat, (∀ c ∈ l, isBasicCode c = true) →
    l.map (fun b => if isBasicCode b then b else 95) = l := by
  intro l
  induction l with
  | nil => intro _; rfl
  | cons c cs ih =>
      intro h
      simp only [List.map_cons]
      rw [if_pos (h c (List.mem_cons_self _ _)),
        ih (fun x hx => h x (List.mem_cons_of_mem _ hx))]

theorem fallback_append_suffix (b : Nat) (rest : List Nat) (n : Nat) :
    fallbackCodes ((b :: rest) ++ sufCodes n) =
      fallbackCodes (b :: rest) ++ sufCodes n := by
  simp only [fallbackCodes, List.cons_append, List.map_cons, List.map_append]
  rw [map_sub_of_basic (sufCodes n) (sufCodes_basic n)]
  by_cases hd : isDigitCode (if isBasicCode b then b else 95) = true
  · rw [if_pos hd, if_pos hd]
    simp
  · rw [if_neg hd, if_neg hd]
    simp

theorem utf8Decode_nil : utf8Decode [] = some [] := rfl

theorem encodeInput_suffix_inj (r : NameInput) (m n : Nat) (hmn : m ≠ n) :
    encodeInput (sufInput r m) ≠ encodeInput (sufInput r n) := by
  cases r with
  | txt cs =>
      simpa only [encodeInput, sufInput] using encodeIdent_suffix_inj cs m n hmn
  | bytes bs =>
      simp only [encodeInput, sufInput]
      cases hu : utf8Decode bs with
      | some cs =>
          rw [utf8Decode_append_some bs (sufCodes m) cs (sufCodes_ascii m) hu,
            utf8Decode_append_some bs (sufCodes n) cs (sufCodes_ascii n) hu]
          exact encodeIdent_suffix_inj cs m n hmn
      | none =>
          rw [utf8Decode_append_none bs (sufCodes m) (sufCodes_ascii m) hu,
            utf8Decode_append_none bs (sufCodes n) (sufCodes_ascii n) hu]
          rcases bs with _ | ⟨b, rest⟩
          · rw [utf8Decode_nil] at hu
            cases hu
          · rw [fallback_append_suffix b rest m, fallback_append_suffix b rest n]
            intro he
            exact hmn (sufCodes_inj m n (List.append_cancel_left he))

theorem sufInput_inj (r : NameInput) (m n : Nat)
    (h : sufInput r m = sufInput r n) : m = n := by
  cases r with
  | txt cs =>
      simp only [sufInput, NameInput.txt.injEq] at h
      exact sufCodes_inj m n (List.append_cancel_left h)
  | bytes bs =>
      simp only [sufInput, NameInput.bytes.injEq] at h
      exact sufCodes_inj m n (List.append_cancel_left h)

theorem sufText_inj (r : List Nat) (m n : Nat)
    (h : sufText r m = sufText r n) : m = n := by
  simp only [sufText] at h
  exact sufCodes_inj m n (List.append_cancel_left h)

/-! ### The uniquifier always finds a free name -/

theorem exists_free {α : Type} [DecidableEq α] (enc : α → List Nat)
    (suf : α → Nat → α) (taken : List (List Nat)) (later : List α) (r : α)
    (hinj : ∀ m n : Nat, m ≠ n →
      suf r m ≠ suf r n ∧ enc (suf r m) ≠ enc (suf r n)) :
    ∃ n ∈ (List.range (taken.length + later.length + 1)).map (· + 1),
      freeCand enc suf taken later r n = true := by
  by_contra hno
  push_neg at hno
  set F := taken.length + later.length + 1 with hF
  have hblock : ∀ i, i < F → enc (suf r (i + 1)) ∈ taken ∨ suf r (i + 1) ∈ later := by
    intro i hi
    have hmem : (i + 1) ∈ (List.range F).map (· + 1) := by
      simp only [List.mem_map, List.mem_range]
      exact ⟨i, hi, rfl⟩
    have hne := hno (i + 1) hmem
    have hca : ¬ (enc (suf r (i + 1)) ∉ taken ∧ suf r (i + 1) ∉ later) := by
      intro hc
      exact hne (by simp only [freeCand, decide_eq_true_eq]; exact hc)
    tauto
  classical
  let g : Nat → (List Nat) ⊕ α := fun i =>
    if enc (suf r (i + 1)) ∈ taken then Sum.inl (enc (suf r (i + 1)))
    else Sum.inr (suf r (i + 1))
  have hmaps : ∀ i ∈ Finset.range F,
      g i ∈ (taken.toFinset.image Sum.inl ∪ later.toFinset.image Sum.inr :
        Finset ((List Nat) ⊕ α)) := by
    intro i hi
    rw [Finset.mem_range] at hi
    rcases hblock i hi with hb | hb
    · simp only [g]
      rw [if_pos hb]
      apply Finset.mem_union_left
      exact Finset.mem_image_of_mem _ (List.mem_toFinset.mpr hb)
    · by_cases ht : enc (suf r (i + 1)) ∈ taken
      · simp only [g]
        rw [if_pos ht]
        apply Finset.mem_union_left
        exact Finset.mem_image_of_mem _ (List.mem_toFinset.mpr ht)
      · simp only [g]
        rw [if_neg ht]
        apply Finset.mem_union_right
        exact Finset.mem_image_of_mem _ (List.mem_toFinset.mpr hb)
  have hinjOn : Set.InjOn g (Finset.range F) := by
    intro i _ j _ hg
    by_contra hne
    have hij : i + 1 ≠ j + 1 := by omega
    obtain ⟨hs, he⟩ := hinj (i + 1) (j + 1) hij
    simp only [g] at hg
    by_cases ht1 : enc (suf r (i + 1)) ∈ taken
    · by_cases ht2 : enc (suf r (j + 1)) ∈ taken
      · rw [if_pos ht1, if_pos ht2] at hg
        exact he (Sum.inl.injEq _ _ ▸ hg)
      · rw [if_pos ht1, if_neg ht2] at hg
        cases hg
    · by_cases ht2 : enc (suf r (j + 1)) ∈ taken
      · rw [if_neg ht1, if_pos ht2] at hg
        cases hg
      · rw [if_neg ht1, if_neg ht2] at hg
        exact hs (Sum.inr.injEq _ _ ▸ hg)
  have hcard := Finset.card_le_card_of_injOn g hmaps hinjOn
  rw [Finset.card_range] at hcard
  have h1 : (taken.toFinset.image Sum.inl ∪ later.toFinset.image Sum.inr :
      Finset ((List Nat) ⊕ α)).card ≤ taken.length + later.length := by
    refine le_trans (Finset.card_union_le _ _) ?_
    have ha : (taken.toFinset.image
        (Sum.inl : List Nat → (List Nat) ⊕ α)).card ≤ taken.length :=
      le_trans (Finset.card_image_le) (List.toFinset_card_le taken)
    have hb : (later.toFinset.image
        (Sum.inr : α → (List Nat) ⊕ α)).card ≤ later.length :=
      le_trans (Finset.card_image_le) (List.toFinset_card_le later)
    omega
  omega

theorem pickName_spec {α : Type} [DecidableEq α] (enc : α → List Nat)
    (suf : α → Nat → α) (taken : List (List Nat)) (later : List α) (r : α)
    (hinj : ∀ m n : Nat, m ≠ n →
      suf r m ≠ suf r n ∧ enc (suf r m) ≠ enc (suf r n)) :
    pickName enc suf taken later r ∉ taken := by
  unfold pickName
  by_cases hl : enc r ∈ taken
  · rw [if_pos hl]
    cases hfind : ((List.range (taken.length + later.length + 1)).map
        (· + 1)).find? (freeCand enc suf taken later r) with
    | some n =>
        have := List.find?_some hfind
        simp only [freeCand, decide_eq_true_eq] at this
        exact this.1
    | none =>
        exfalso
        obtain ⟨n, hn, hfree⟩ := exists_free enc suf taken later r hinj
        have := List.find?_eq_none.mp hfind n hn
        exact this hfree
  · rw [if_neg hl]
    exact hl

theorem uniquifyCore_length {α : Type} [DecidableEq α] (enc : α → List Nat)
    (suf : α → Nat → α) : ∀ (req : List α) (taken : List (List Nat)),
    (uniquifyCore enc suf req taken).length = req.length := by
  intro req
  induction req with
  | nil => intro taken; rfl
  | cons r rest ih =>
      intro taken
      simp only [uniquifyCore, List.length_cons]
      rw [ih]

theorem uniquifyCore_avoid {α : Type} [DecidableEq α] (enc : α → List Nat)
    (suf : α → Nat → α)
    (hinj : ∀ r : α, ∀ m n : Nat, m ≠ n →
      suf r m ≠ suf r n ∧ enc (suf r m) ≠ enc (suf r n)) :
    ∀ (req : List α) (taken : List (List Nat)),
    ∀ nm ∈ uniquifyCore enc suf req taken, nm ∉ taken := by
  intro req
  induction req with
  | nil => intro taken nm hnm; simp [uniquifyCore] at hnm
  | cons r rest ih =>
      intro taken nm hnm
      simp only [uniquifyCore, List.mem_cons] at hnm
      rcases hnm with h | h
      · rw [h]
        exact pickName_spec enc suf taken rest r (hinj r)
      · have := ih (pickName enc suf taken rest r :: taken) nm h
        intro hmem
        exact this (List.mem_cons_of_mem _ hmem)

theorem uniquifyCore_nodup {α : Type} [DecidableEq α] (enc : α → List Nat)
    (suf : α → Nat → α)
    (hinj : ∀ r : α, ∀ m n : Nat, m ≠ n →
      suf r m ≠ suf r n ∧ enc (suf r m) ≠ enc (suf r n)) :
    ∀ (req : List α) (taken : List (List Nat)),
    (uniquifyCore enc suf req taken).Nodup := by
  intro req
  induction req with
  | nil => intro taken; exact List.nodup_nil
  | cons r rest ih =>
      intro taken
      simp only [uniquifyCore]
      rw [List.nodup_cons]
      constructor
      · intro hmem
        have := uniquifyCore_avoid enc suf hinj rest
          (pickName enc suf taken rest r :: taken) _ hmem
        exact this (List.mem_cons_self _ _)
      · exact ih _

theorem hinj_input : ∀ r : NameInput, ∀ m n : Nat, m ≠ n →
    sufInput r m ≠ sufInput r n ∧
      encodeInput (sufInput r m) ≠ encodeInput (sufInput r n) := by
  intro r m n hmn
  exact ⟨fun h => hmn (sufInput_inj r m n h), encodeInput_suffix_inj r m n hmn⟩

/-! ### Legality of every encoded token -/

theorem escape_all_basic (cps : List Nat) :
    ∀ c ∈ escapeCodes cps, isBasicCode c = true := by
  intro c hc
  simp only [escapeCodes, List.append_assoc, List.mem_append] at hc
  rcases hc with hc | hc | hc | hc
  · simp only [tnMarker, List.mem_cons] at hc
    rcases hc with rfl | rfl | rfl | rfl | h
    · rfl
    · rfl
    · rfl
    · rfl
    · simp at h
  · exact (List.mem_filter.mp hc).2
  · by_cases hb : (cps.filter isBasicCode).isEmpty
    · rw [if_pos hb] at hc
      simp at hc
    · rw [if_neg hb] at hc
      simp only [List.mem_singleton] at hc
      rw [hc]
      rfl
  · rw [List.mem_map] at hc
    obtain ⟨d, hd, rfl⟩ := hc
    exact digitChar_basic d (digits_lt cps d hd)

theorem isLegalToken_eq_unchangedOK (cs : List Nat) :
    isLegalToken cs = unchangedOK cs := rfl

theorem escape_legal (cps : List Nat) :
    isLegalToken (escapeCodes cps) = true := by
  simp only [isLegalToken]
  have h1 : (escapeCodes cps).isEmpty = false := by
    simp [escapeCodes, tnMarker]
  have h2 : (escapeCodes cps).all isBasicCode = true := by
    rw [List.all_eq_true]
    exact escape_all_basic cps
  have h3 : (escapeCodes cps).headD 0 = 116 := by
    simp [escapeCodes, tnMarker]
  rw [h1, h2, h3]
  rfl

theorem encodeIdent_legal (cps : List Nat) :
    isLegalToken (encodeIdentCodes cps) = true := by
  simp only [encodeIdentCodes]
  by_cases hu : unchangedOK cps = true
  · rw [if_pos hu, isLegalToken_eq_unchangedOK]
    exact hu
  · rw [if_neg hu]
    exact escape_legal cps

theorem encodeIdent_all_basic (cps : List Nat) :
    ∀ c ∈ encodeIdentCodes cps, isBasicCode c = true := by
  have := encodeIdent_legal cps
  simp only [isLegalToken, Bool.and_eq_true, List.all_eq_true] at this
  exact this.1.2

theorem encodeIdent_ne_58 (cps : List Nat) :
    ∀ c ∈ encodeIdentCodes cps, c ≠ 58 := by
  intro c hc he
  have := encodeIdent_all_basic cps c hc
  rw [he] at this
  simp [isBasicCode] at this

/-! ### Namespaced names: splitting and joining -/

theorem splitSegs_ne_nil : ∀ cs : List Nat, splitSegs cs ≠ [] := by
  intro cs
  cases cs with
  | nil => simp [splitSegs]
  | cons c cs =>
      simp only [splitSegs]
      by_cases hc : (c == 58) = true
      · rw [if_pos hc]; simp
      · rw [if_neg hc]; simp

theorem splitSegs_no58 : ∀ cs : List Nat, (∀ c ∈ cs, c ≠ 58) →
    splitSegs cs = [cs] := by
  intro cs
  induction cs with
  | nil => intro _; rfl
  | cons c cs ih =>
      intro h
      simp only [splitSegs]
      rw [if_neg (by
        simp only [beq_iff_eq]
        exact h c (List.mem_cons_self _ _))]
      rw [ih (fun x hx => h x (List.mem_cons_of_mem _ hx))]
      rfl

theorem splitSegs_append (ds : List Nat) (hds : ∀ c ∈ ds, c ≠ 58) :
    ∀ cs : List Nat, ∃ I l, splitSegs cs = I ++ [l] ∧
      splitSegs (cs ++ ds) = I ++ [l ++ ds] := by
  intro cs
  induction cs with
  | nil =>
      refine ⟨[], [], rfl, ?_⟩
      simp only [List.nil_append]
      exact splitSegs_no58 ds hds
  | cons c cs ih =>
      obtain ⟨I, l, h1, h2⟩ := ih
      by_cases hc : (c == 58) = true
      · refine ⟨[] :: I, l, ?_, ?_⟩
        · simp only [splitSegs]
          rw [if_pos hc, h1]
          rfl
        · simp only [List.cons_append, splitSegs, List.append_eq]
          rw [if_pos hc, h2]
      · cases I with
        | nil =>
            refine ⟨[], c :: l, ?_, ?_⟩
            · simp only [splitSegs]
              rw [if_neg hc, h1]
              rfl
            · simp only [List.cons_append, splitSegs, List.append_eq]
              rw [if_neg hc, h2]
              rfl
        | cons s ss =>
            refine ⟨(c :: s) :: ss, l, ?_, ?_⟩
            · simp only [splitSegs]
              rw [if_neg hc, h1]
              rfl
            · simp only [List.cons_append, splitSegs, List.append_eq]
              rw [if_neg hc, h2]
              rfl

theorem splitSegs_colon (s : List Nat) (hs : ∀ c ∈ s, c ≠ 58) :
    ∀ rest : List Nat, splitSegs (s ++ 58 :: rest) = s :: splitSegs rest := by
  induction s with
  | nil =>
      intro rest
      simp only [List.nil_append, splitSegs]
      rw [if_pos (by decide)]
  | cons c s ih =>
      intro rest
      simp only [List.cons_append, splitSegs, List.append_eq]
      rw [if_neg (by
        simp only [beq_iff_eq]
        exact hs c (List.mem_cons_self _ _))]
      rw [ih (fun x hx => hs x (List.mem_cons_of_mem _ hx)) rest]
      rfl

theorem splitSegs_joinSegs : ∀ S : List (List Nat), S ≠ [] →
    (∀ s ∈ S, ∀ c ∈ s, c ≠ 58) → splitSegs (joinSegs S) = S := by
  intro S
  induction S with
  | nil => intro h _; exact absurd rfl h
  | cons s ss ih =>
      intro _ hnc
      cases ss with
      | nil =>
          show splitSegs s = [s]
          exact splitSegs_no58 s (hnc s (List.mem_cons_self _ _))
      | cons t ts =>
          show splitSegs (s ++ 58 :: joinSegs (t :: ts)) = s :: t :: ts
          rw [splitSegs_colon s (hnc s (List.mem_cons_self _ _))]
          rw [ih (by simp) (fun x hx => hnc x (List.mem_cons_of_mem _ hx))]

theorem joinSegs_snoc : ∀ S : List (List Nat), S ≠ [] → ∀ a : List Nat,
    joinSegs (S ++ [a]) = joinSegs S ++ 58 :: a := by
  intro S
  induction S with
  | nil => intro h; exact absurd rfl h
  | cons s ss ih =>
      intro _ a
      cases ss with
      | nil => rfl
      | cons t ts =>
          show s ++ 58 :: joinSegs ((t :: ts) ++ [a]) = (s ++ 58 :: joinSegs (t :: ts)) ++ 58 :: a
          rw [ih (by simp) a]
          simp

/-! ### Namespaced suffix injectivity -/

theorem sufCodes_ne_58 (n : Nat) : ∀ c ∈ sufCodes n, c ≠ 58 := by
  intro c hc he
  have := sufCodes_basic n c hc
  rw [he] at this
  simp [isBasicCode] at this

theorem snoc_inj (I I' : List (List Nat)) (l l' : List Nat)
    (h : I ++ [l] = I' ++ [l']) : I = I' ∧ l = l' := by
  have hlen : I.length = I'.length := by
    have := congrArg List.length h
    simp at this
    omega
  obtain ⟨h1, h2⟩ := List.append_inj h hlen
  exact ⟨h1, by simpa using h2⟩

theorem encodeProp_suffix_inj (cs : List Nat) (m n : Nat) (hmn : m ≠ n) :
    encodePropCodes (cs ++ sufCodes m) ≠ encodePropCodes (cs ++ sufCodes n) := by
  obtain ⟨I, l, h1, h2⟩ := splitSegs_append (sufCodes m) (sufCodes_ne_58 m) cs
  obtain ⟨I', l', h1', h2'⟩ := splitSegs_append (sufCodes n) (sufCodes_ne_58 n) cs
  obtain ⟨hI, hl⟩ := snoc_inj I' I l' l (h1'.symm.trans h1)
  rw [hI, hl] at h2'
  intro he
  simp only [encodePropCodes] at he
  rw [h2, h2'] at he
  simp only [List.map_append, List.map_cons, List.map_nil] at he
  by_cases hI0 : I.map encodeIdentCodes = []
  · rw [hI0] at he
    simp only [List.nil_append] at he
    exact encodeIdent_suffix_inj l m n hmn (by simpa [joinSegs] using he)
  · rw [joinSegs_snoc _ hI0, joinSegs_snoc _ hI0] at he
    have h58 := List.append_cancel_left he
    exact encodeIdent_suffix_inj l m n hmn (by simpa using h58)

theorem hinj_prop : ∀ r : List Nat, ∀ m n : Nat, m ≠ n →
    sufText r m ≠ sufText r n ∧
      encodePropCodes (sufText r m) ≠ encodePropCodes (sufText r n) := by
  intro r m n hmn
  refine ⟨fun h => hmn (sufText_inj r m n h), ?_⟩
  simpa only [sufText] using encodeProp_suffix_inj r m n hmn

/-! ### Shape of each resolved name -/

theorem pickName_shape_prop (taken later : List (List Nat)) (r : List Nat) :
    ∃ k, pickName encodePropCodes sufText taken later r =
      encodePropCodes (sufTextOpt r k) := by
  unfold pickName
  by_cases hl : encodePropCodes r ∈ taken
  · rw [if_pos hl]
    cases hfind : ((List.range (taken.length + later.length + 1)).map
        (· + 1)).find? (freeCand encodePropCodes sufText taken later r) with
    | some n =>
        have hmem := List.mem_of_find?_eq_some hfind
        simp only [List.mem_map, List.mem_range] at hmem
        obtain ⟨i, _, rfl⟩ := hmem
        exact ⟨i + 1, by simp [sufTextOpt, sufText]⟩
    | none => exact ⟨0, rfl⟩
  · rw [if_neg hl]
    exact ⟨0, rfl⟩

theorem uniquifyCore_getD_prop :
    ∀ (req : List (List Nat)) (taken : List (List Nat)) (i : Nat),
    i < req.length →
    ∃ taken2 later2,
      (uniquifyCore encodePropCodes sufText req taken).getD i [] =
        pickName encodePropCodes sufText taken2 later2 (req.getD i []) := by
  intro req
  induction req with
  | nil => intro taken i h; simp at h
  | cons r rest ih =>
      intro taken i h
      cases i with
      | zero => exact ⟨taken, rest, rfl⟩
      | succ i =>
          obtain ⟨t2, l2, ht⟩ :=
            ih (pickName encodePropCodes sufText taken rest r :: taken) i
              (by simpa using h)
          exact ⟨t2, l2, by simpa [uniquifyCore] using ht⟩

/-! ### Fallback legality and property-name shape -/

theorem fallback_legal (bs : List Nat) : isLegalToken (fallbackCodes bs) = true := by
  simp only [fallbackCodes]
  cases hm : bs.map (fun b => if isBasicCode b then b else 95) with
  | nil => rfl
  | cons c subst =>
      have hall : ∀ x ∈ c :: subst, isBasicCode x = true := by
        rw [← hm]
        intro x hx
        rw [List.mem_map] at hx
        obtain ⟨b, _, rfl⟩ := hx
        by_cases hb : isBasicCode b = true
        · rw [if_pos hb]; exact hb
        · rw [if_neg hb]; rfl
      show isLegalToken (if isDigitCode c = true then 95 :: c :: subst
        else c :: subst) = true
      by_cases hd : isDigitCode c = true
      · rw [if_pos hd]
        have h2 : (95 :: c :: subst).all isBasicCode = true := by
          rw [List.all_eq_true]
          intro x hx
          rcases List.mem_cons.mp hx with h | h
          · rw [h]; rfl
          · exact hall x h
        simp [isLegalToken, h2]
        decide
      · rw [if_neg hd]
        have h2 : (c :: subst).all isBasicCode = true := by
          rw [List.all_eq_true]
          exact hall
        simp only [Bool.not_eq_true] at hd
        simp [isLegalToken, h2, hd]

theorem dropLast_snoc (I : List (List Nat)) (x : List Nat) :
    (I ++ [x]).dropLast = I := by
  induction I with
  | nil => rfl
  | cons s ss ih =>
      show (s :: (ss ++ [x])).dropLast = s :: ss
      rw [List.dropLast_cons_of_ne_nil (by simp), ih]

theorem dropLast_map_enc : ∀ S : List (List Nat),
    (S.map encodeIdentCodes).dropLast = S.dropLast.map encodeIdentCodes := by
  intro S
  induction S with
  | nil => rfl
  | cons s ss ih =>
      cases ss with
      | nil => rfl
      | cons t ts =>
          show encodeIdentCodes s :: (List.map encodeIdentCodes (t :: ts)).dropLast =
            encodeIdentCodes s :: List.map encodeIdentCodes ((t :: ts).dropLast)
          rw [ih]

theorem map_enc_ne_nil (S : List (List Nat)) (h : S ≠ []) :
    S.map encodeIdentCodes ≠ [] := by
  intro he
  exact h (List.map_eq_nil_iff.mp he)

theorem map_enc_no58 (S : List (List Nat)) :
    ∀ s ∈ S.map encodeIdentCodes, ∀ c ∈ s, c ≠ 58 := by
  intro s hs
  rw [List.mem_map] at hs
  obtain ⟨t, _, rfl⟩ := hs
  exact encodeIdent_ne_58 t

theorem splitSegs_encodeProp_sufOpt (r : List Nat) (k : Nat) :
    (splitSegs (encodePropCodes (sufTextOpt r k))).dropLast =
      ((splitSegs r).dropLast).map encodeIdentCodes := by
  cases k with
  | zero =>
      simp only [sufTextOpt, encodePropCodes]
      rw [splitSegs_joinSegs _ (map_enc_ne_nil _ (splitSegs_ne_nil r))
        (map_enc_no58 _)]
      exact dropLast_map_enc _
  | succ k =>
      simp only [sufTextOpt, encodePropCodes]
      obtain ⟨I, l, h1, h2⟩ :=
        splitSegs_append (sufCodes (k + 1)) (sufCodes_ne_58 _) r
      rw [h2, h1]
      rw [splitSegs_joinSegs _
        (map_enc_ne_nil _ (by simp))
        (map_enc_no58 _)]
      rw [List.map_append, List.map_cons, List.map_nil]
      rw [dropLast_snoc, dropLast_snoc]

/-! ### Claim theorems -/

/-- Claim C1: every batch call (prim / child / property names) returns a
sequence of the same length as the request, with no two returned names equal
and no returned name in the supplied reserved set; the cube/sphere example
resolves as documented. -/
theorem claim_C1_batch_uniqueness :
    (∀ (req : List NameInput) (reserved : List (List Nat)),
      (getValidPrimNamesM req reserved).length = req.length ∧
      (getValidPrimNamesM req reserved).Nodup ∧
      ∀ nm ∈ getValidPrimNamesM req reserved, nm ∉ reserved) ∧
    (∀ (children : List (List Nat)) (req : List NameInput),
      (getValidChildNamesM children req).length = req.length ∧
      (getValidChildNamesM children req).Nodup ∧
      ∀ nm ∈ getValidChildNamesM children req, nm ∉ children) ∧
    (∀ (req reserved : List (List Nat)),
      (getValidPropertyNamesM req reserved).length = req.length ∧
      (getValidPropertyNamesM req reserved).Nodup ∧
      ∀ nm ∈ getValidPropertyNamesM req reserved, nm ∉ reserved) ∧
    getValidPrimNamesM [.txt (strCodes "cube"), .txt (strCodes "sphere"),
        .txt (strCodes "sphere"), .txt (strCodes "cube_1"),
        .txt (strCodes "cube_1")] [] =
      [strCodes "cube", strCodes "sphere", strCodes "sphere_1",
       strCodes "cube_1", strCodes "cube_1_1"] := by
  refine ⟨?_, ?_, ?_, by decide⟩
  · intro req reserved
    exact ⟨uniquifyCore_length _ _ req reserved,
      uniquifyCore_nodup _ _ hinj_input req reserved,
      uniquifyCore_avoid _ _ hinj_input req reserved⟩
  · intro children req
    exact ⟨uniquifyCore_length _ _ req children,
      uniquifyCore_nodup _ _ hinj_input req children,
      uniquifyCore_avoid _ _ hinj_input req children⟩
  · intro req reserved
    exact ⟨uniquifyCore_length _ _ req reserved,
      uniquifyCore_nodup _ _ hinj_prop req reserved,
      uniquifyCore_avoid _ _ hinj_prop req reserved⟩

theorem claim_C1_batch_uniqueness_witness :
    strCodes "foo_1" ∈ getValidPrimNamesM [.txt (strCodes "foo")]
      [strCodes "foo"] ∧
    strCodes "foo_1" ∉ [strCodes "foo"] :=
  ⟨by decide,
   (claim_C1_batch_uniqueness.1 [.txt (strCodes "foo")] [strCodes "foo"]).2.2
     (strCodes "foo_1") (by decide)⟩

/-- Claim C2: for every input that takes the reversible (escaped) encode
path, decoding the encoded token reproduces the input; in particular the
katakana example encodes to the documented token and decodes back. -/
theorem claim_C2_roundTrip :
    (∀ cs : List Nat, unchangedOK cs = false →
      decodeIdentCodes (encodeIdentCodes cs) = some cs) ∧
    encodeIdentCodes (strCodes "カーテンウォール") = strCodes "tn__sxB76l2Y5o0X16" ∧
    decodeIdentCodes (strCodes "tn__sxB76l2Y5o0X16") =
      some (strCodes "カーテンウォール") := by
  refine ⟨?_, by decide, by decide⟩
  intro cs h
  have he : encodeIdentCodes cs = escapeCodes cs := by
    simp [encodeIdentCodes, h]
  rw [he]
  exact escape_roundTrip cs

theorem claim_C2_roundTrip_witness :
    unchangedOK (strCodes "カーテンウォール") = false ∧
    decodeIdentCodes (encodeIdentCodes (strCodes "カーテンウォール")) =
      some (strCodes "カーテンウォール") :=
  ⟨by decide, claim_C2_roundTrip.1 (strCodes "カーテンウォール") (by decide)⟩

/-- Claim C3: literal requests later in the batch take precedence over
generated suffixes, and generated suffixes fill remaining gaps in increasing
order, exactly as in the documented sphere example. -/
theorem claim_C3_literal_preference :
    getValidPrimNamesM [.txt (strCodes "sphere"), .txt (strCodes "sphere"),
        .txt (strCodes "sphere_1"), .txt (strCodes "sphere"),
        .txt (strCodes "sphere_2")] [] =
      [strCodes "sphere", strCodes "sphere_3", strCodes "sphere_1",
       strCodes "sphere_4", strCodes "sphere_2"] := by
  decide

/-- Claim C4: the single-token encode always returns a non-empty legal
token, is the identity on already-legal tokens, and maps the empty string
and digit-leading strings to the documented escaped forms. -/
theorem claim_C4_encode_contract :
    (∀ cs : List Nat, isLegalToken (encodeIdentCodes cs) = true) ∧
    (∀ cs : List Nat, isLegalToken cs = true → encodeIdentCodes cs = cs) ∧
    encodeIdentCodes (strCodes "_") = strCodes "_" ∧
    encodeIdentCodes (strCodes "_1") = strCodes "_1" ∧
    encodeIdentCodes (strCodes "mesh") = strCodes "mesh" ∧
    encodeIdentCodes (strCodes "") = strCodes "tn__" ∧
    encodeIdentCodes (strCodes "1") = strCodes "tn__1_" ∧
    encodeIdentCodes (strCodes "1_mesh") = strCodes "tn__1_mesh_" := by
  refine ⟨encodeIdent_legal, ?_, by decide, by decide, by decide, by decide,
    by decide, by decide⟩
  intro cs h
  rw [isLegalToken_eq_unchangedOK] at h
  simp [encodeIdentCodes, h]

theorem claim_C4_encode_contract_witness :
    isLegalToken (strCodes "mesh") = true ∧
    encodeIdentCodes (strCodes "mesh") = strCodes "mesh" :=
  ⟨by decide, claim_C4_encode_contract.2.1 (strCodes "mesh") (by decide)⟩

/-- Claim C5: for property (namespaced) names every output is the encoding
of the original request with at most one numeric suffix appended to the
original (so only the last segment ever changes), all leading segments are
exactly the independent encodings of the original leading segments, and the
documented foo:bar example resolves with the foo segment untouched. -/
theorem claim_C5_namespace_isolation :
    (∀ (req reserved : List (List Nat)) (i : Nat), i < req.length →
      ∃ k, (getValidPropertyNamesM req reserved).getD i [] =
          encodePropCodes (sufTextOpt (req.getD i []) k) ∧
        (splitSegs ((getValidPropertyNamesM req reserved).getD i [])).dropLast
          = ((splitSegs (req.getD i [])).dropLast).map encodeIdentCodes) ∧
    getValidPropertyNamesM [strCodes "foo:bar", strCodes "foo:bar"] [] =
      [strCodes "foo:bar", strCodes "foo:bar_1"] := by
  refine ⟨?_, by decide⟩
  intro req reserved i hi
  simp only [getValidPropertyNamesM]
  obtain ⟨t2, l2, ht⟩ := uniquifyCore_getD_prop req reserved i hi
  obtain ⟨k, hk⟩ := pickName_shape_prop t2 l2 (req.getD i [])
  rw [ht, hk]
  exact ⟨k, rfl, splitSegs_encodeProp_sufOpt _ _⟩

theorem claim_C5_namespace_isolation_witness :
    1 < ([strCodes "foo:bar", strCodes "foo:bar"] : List (List Nat)).length ∧
    ∃ k, (getValidPropertyNamesM
          [strCodes "foo:bar", strCodes "foo:bar"] []).getD 1 [] =
        encodePropCodes (sufTextOpt
          (([strCodes "foo:bar", strCodes "foo:bar"] :
            List (List Nat)).getD 1 []) k) ∧
      (splitSegs ((getValidPropertyNamesM
          [strCodes "foo:bar", strCodes "foo:bar"] []).getD 1 [])).dropLast =
        ((splitSegs (([strCodes "foo:bar", strCodes "foo:bar"] :
          List (List Nat)).getD 1 [])).dropLast).map encodeIdentCodes :=
  ⟨by decide,
   claim_C5_namespace_isolation.1 [strCodes "foo:bar", strCodes "foo:bar"]
     [] 1 (by decide)⟩

/-- Claim C6: on a scope with no children, successive cached getNames calls
return foo/bar then foo_1/bar_1 (even though no children were created), and
after clear the next call returns foo/bar again. -/
theorem claim_C6_cache_monotonicity :
    (cacheGetNames [] none
        [.txt (strCodes "foo"), .txt (strCodes "bar")]).1 =
      [strCodes "foo", strCodes "bar"] ∧
    (cacheGetNames []
        (cacheGetNames [] none
          [.txt (strCodes "foo"), .txt (strCodes "bar")]).2
        [.txt (strCodes "foo"), .txt (strCodes "bar")]).1 =
      [strCodes "foo_1", strCodes "bar_1"] ∧
    (cacheGetNames []
        (cacheClear (cacheGetNames []
          (cacheGetNames [] none
            [.txt (strCodes "foo"), .txt (strCodes "bar")]).2
          [.txt (strCodes "foo"), .txt (strCodes "bar")]).2)
        [.txt (strCodes "foo"), .txt (strCodes "bar")]).1 =
      [strCodes "foo", strCodes "bar"] := by
  exact ⟨by decide, by decide, by decide⟩

/-- Claim C7: byte inputs that are not valid UTF-8 deterministically take
the lossy fallback (never the reversible path): each illegal byte becomes
an underscore, a leading digit is prefixed with an underscore, and no
escape marker is introduced; the two latin-1 examples produce the
documented outputs. -/
theorem claim_C7_lossy_fallback :
    (∀ bs : List Nat, utf8Decode bs = none →
      encodeInput (.bytes bs) = fallbackCodes bs) ∧
    encodeInput (.bytes [109, 101, 115, 104, 95, 196]) = strCodes "mesh__" ∧
    encodeInput (.bytes [49, 95, 196]) = strCodes "_1__" := by
  refine ⟨?_, by decide, by decide⟩
  intro bs h
  simp [encodeInput, h]

theorem claim_C7_lossy_fallback_witness :
    utf8Decode [196] = none ∧
    encodeInput (.bytes [196]) = fallbackCodes [196] :=
  ⟨by decide, claim_C7_lossy_fallback.1 [196] (by decide)⟩

/-- Claim C8: the transcoding setting defaults to enabled; a false or
non-boolean override degrades to the fallback path with a diagnostic and
never a hard failure; with the fallback forced every output is still a
legal token and the three documented examples hold. -/
theorem claim_C8_config_degradation :
    transcodingEffective none = true ∧
    transcodingEffective (some "False") = false ∧
    (∀ v : String, parseBoolSetting v = none →
      transcodingEffective (some v) = false ∧
        settingDiagnostic (some v) = true) ∧
    (∀ inp : NameInput, isLegalToken (getValidPrimNameCfg false inp) = true) ∧
    getValidPrimNameCfg false (.txt (strCodes "sphere%$%#ad@$1")) =
      strCodes "sphere____ad__1" ∧
    getValidPrimNameCfg false (.txt (strCodes "1 mesh")) =
      strCodes "_1_mesh" ∧
    getValidPrimNameCfg false (.txt (strCodes "")) = strCodes "_" := by
  refine ⟨rfl, by decide, ?_, ?_, by decide, by decide, by decide⟩
  · intro v h
    constructor
    · simp [transcodingEffective, h]
    · simp [settingDiagnostic, transcodingEffective, h]
  · intro inp
    cases inp with
    | txt cs => exact fallback_legal cs
    | bytes bs => exact fallback_legal bs

theorem claim_C8_config_degradation_witness :
    parseBoolSetting "invalid value type" = none ∧
    (transcodingEffective (some "invalid value type") = false ∧
      settingDiagnostic (some "invalid value type") = true) :=
  ⟨by decide,
   claim_C8_config_degradation.2.2.1 "invalid value type" (by decide)⟩

/-- Claim C9: the documented unexpected collision between the empty-string
encoding and the literal escape marker is replicated exactly in both
property-name batches. -/
theorem claim_C9_unexpected_collision :
    getValidPropertyNamesM [strCodes ""] [strCodes "tn__"] =
      [strCodes "_1"] ∧
    getValidPropertyNamesM [strCodes "", strCodes "tn__", strCodes "tn__"]
        [] =
      [strCodes "tn__", strCodes "tn___1", strCodes "tn___2"] := by
  exact ⟨by decide, by decide⟩

/-- Claim C10: when identical reversible-path inputs collide in one batch,
the numeric suffix is applied to the original string before encoding:
the second katakana output is the documented token, it decodes to the
suffixed original, and it differs from naively suffixing the first escaped
token. -/
theorem claim_C10_suffix_before_encode :
    getValidPrimNamesM [.txt (strCodes "カーテンウォール"),
        .txt (strCodes "カーテンウォール")] [] =
      [strCodes "tn__sxB76l2Y5o0X16", strCodes "tn___1_cvb0DAd4k7Z1p16"] ∧
    decodeIdentCodes (strCodes "tn___1_cvb0DAd4k7Z1p16") =
      some (strCodes "カーテンウォール_1") ∧
    strCodes "tn___1_cvb0DAd4k7Z1p16" ≠
      strCodes "tn__sxB76l2Y5o0X16" ++ sufCodes 1 := by
  exact ⟨by decide, by decide, by decide⟩
